import Mathlib

/-!
# ALPSCore transform: Matsubara frequency / imaginary time conversion

Shallow embedding of `src/src/fourier.cpp` (with the declarations of
`fourier.hpp`).

* `double` and `std::complex<double>` are the exact fields `ℝ` and `ℂ`; the
  integer quotient handed to `std::ceil` is converted exactly (`ℚ`).
* A pointer to a buffer is a function from the element offset to the value
  (`ℕ → ℝ`, `ℕ → ℂ`); the caller's input and output buffers are disjoint.
* `unsigned` values are natural numbers; the one place where the 32-bit
  wrap-around of `unsigned` arithmetic can be reached with representable
  sizes, `2*k + (unsigned)stat_`, is reduced with `unsigned_wrap`. The other
  `unsigned` expressions (`1 * niw/ntau`, `ntau_ * oversampling_`,
  `n * oversampling_`) are bounded by `niw` and cannot wrap.
* The buffers of a backend plan have a fixed size; an access outside of them
  has no defined result (`none`).
* The `assert` of `iw_to_tau_real::operator()` is enabled (no `NDEBUG`): its
  condition is the predicate `iw_to_tau_real.assertion` on the value
  `iw_to_tau_real.ftau`, and a call in which the condition fails for some time
  index aborts and has no result (`none`).
* `iw_to_tau_model_real` and `apply` (`common.hpp`) use members that the
  headers among the sources do not declare (`in_size()`, `out_size()`,
  `tau_value()` of `iw_to_tau_real`, the tail model): the sizes are `niw` and
  `ntau`, the tau grid and the tail model are parameters. A `std::vector` is a
  list, and `&v[0]` the buffer of its elements.
-/

namespace alps

/-- Reduction of a natural number to the range of the C++ type `unsigned`
(32 bits). -/
def unsigned_wrap (x : ℕ) : ℕ := x % 2 ^ 32

namespace fftw

/-- Modelled from the spec: the fast-transform backend adapter (`fftw.hpp` is
not among the sources). A plan has a fixed size and direction and owns an
input and an output buffer of that size. -/
structure wrapper where
  size : ℕ
  direction : ℤ
  inbuf : ℕ → ℂ
  outbuf : ℕ → ℂ

/-- Modelled from the spec: a freshly built plan of the given size and
direction; padded slots of its buffers are zero. -/
noncomputable def wrapper.new (size : ℕ) (direction : ℤ) : wrapper :=
  { size := size, direction := direction, inbuf := fun _ => 0, outbuf := fun _ => 0 }

/-- Modelled from the spec: store one value into the plan's input buffer;
the offset has to lie inside the buffer. -/
noncomputable def wrapper.write_in (w : wrapper) (i : ℕ) (v : ℂ) : Option wrapper :=
  if i < w.size then some { w with inbuf := Function.update w.inbuf i v } else none

/-- Modelled from the spec: `std::copy(src, src + len, in())`; the copied
range has to fit into the plan's input buffer. -/
noncomputable def wrapper.copy_in (w : wrapper) (src : ℕ → ℂ) (len : ℕ) : Option wrapper :=
  if len ≤ w.size then
    some { w with inbuf := fun i => if i < len then src i else w.inbuf i }
  else none

/-- Modelled from the spec: read one value of the plan's output buffer; the
offset has to lie inside the buffer. -/
def wrapper.read_out (w : wrapper) (i : ℕ) : Option ℂ :=
  if i < w.size then some (w.outbuf i) else none

/-- Modelled from the spec: `execute()` computes the unnormalized transform
`out[k] = Σ_j exp(direction·2πi/n·k·j)·in[j]` into the output buffer. -/
noncomputable def wrapper.execute (w : wrapper) : wrapper :=
  { w with outbuf := fun k =>
      if k < w.size then
        ∑ j ∈ Finset.range w.size,
          Complex.exp ((w.direction : ℂ) * (2 * (Real.pi : ℂ) * Complex.I) / (w.size : ℂ)
            * (k : ℂ) * (j : ℂ)) * w.inbuf j
      else w.outbuf k }

end fftw

namespace transform

/-- Signal periodicity, `enum statistics`. -/
inductive statistics where
  | bosonic
  | fermionic
  deriving DecidableEq, Repr

/-- The enumerator values: `bosonic = 0`, `fermionic = 1`. -/
def statistics.toNat : statistics → ℕ
  | statistics.bosonic => 0
  | statistics.fermionic => 1

/-! ## dft -/

/-- Members of `class dft`. -/
structure dft where
  fftw_ : Option fftw.wrapper
  n_ : ℕ
  direction_ : ℤ

/-- Constructor `dft::dft(n, direction, use_fftw)`. -/
noncomputable def dft.new (n : ℕ) (direction : ℤ) (use_fftw : Bool) : dft :=
  { fftw_ := if use_fftw then some (fftw.wrapper.new n direction) else none
    n_ := n
    direction_ := direction }

/-- Accessor `dft::use_fftw()`. -/
def dft.use_fftw (d : dft) : Bool := d.fftw_.isSome

/-- Local `double p2piiIn = direction_*2*M_PI/n_` of `dft::naive`. -/
noncomputable def dft.p2piiIn (d : dft) : ℝ :=
  ((d.direction_ * 2 : ℤ) : ℝ) * Real.pi / (d.n_ : ℝ)

/-- Inner loop of `dft::naive`: the value of `f_hatk` after the loop over
`j`. -/
noncomputable def dft.f_hat (d : dft) (inp : ℕ → ℂ) (k : ℕ) : ℂ :=
  (List.range d.n_).foldl
    (fun (acc : ℂ) (j : ℕ) => acc + Complex.exp ⟨0, d.p2piiIn * (k : ℝ) * (j : ℝ)⟩ * inp j) 0

/-- Function `dft::naive(in, out)`: the output buffer after the call. -/
noncomputable def dft.naive (d : dft) (inp out : ℕ → ℂ) : ℕ → ℂ :=
  (List.range d.n_).foldl (fun o k => Function.update o k (o k + d.f_hat inp k)) out

/-- Function `dft::operator()(in, out)`: the object and the output buffer after
the call. -/
noncomputable def dft.call (d : dft) (inp out : ℕ → ℂ) : Option (dft × (ℕ → ℂ)) :=
  match d.fftw_ with
  | some w =>
    (w.copy_in inp d.n_).bind fun w1 =>
      ((List.range d.n_).foldlM
        (fun o i => (w1.execute.read_out i).map fun v => Function.update o i (o i + v))
        out).map fun o => ({ d with fftw_ := some w1.execute }, o)
  | none => some (d, d.naive inp out)

/-! ## iw_to_tau_real -/

/-- Members of `class iw_to_tau_real`. -/
structure iw_to_tau_real where
  niw_ : ℕ
  ntau_ : ℕ
  oversampling_ : ℕ
  beta_ : ℝ
  stat_ : statistics
  fft_ : Option fftw.wrapper

/-- Constructor `iw_to_tau_real::iw_to_tau_real(niw, ntau, beta, stat, use_fftw)`.
The argument of `std::ceil` is the `unsigned` quotient `1 * niw/ntau`. -/
noncomputable def iw_to_tau_real.new (niw ntau : ℕ) (beta : ℝ) (stat : statistics)
    (use_fftw : Bool) : iw_to_tau_real :=
  { niw_ := niw
    ntau_ := ntau
    oversampling_ := ⌈((1 * niw / ntau : ℕ) : ℚ)⌉₊
    beta_ := beta
    stat_ := stat
    fft_ :=
      if use_fftw then
        some (fftw.wrapper.new (ntau * ⌈((1 * niw / ntau : ℕ) : ℚ)⌉₊) (-1))
      else none }

/-- Local `double wt = M_PI * (2*k + (unsigned)stat_) * i/ntau_` of
`iw_to_tau_real::naive`. -/
noncomputable def iw_to_tau_real.wt (c : iw_to_tau_real) (k i : ℕ) : ℝ :=
  Real.pi * ((unsigned_wrap (2 * k + c.stat_.toNat) : ℕ) : ℝ) * (i : ℝ) / (c.ntau_ : ℝ)

/-- Function `iw_to_tau_real::naive(in, out)`: the output buffer after the
call. -/
noncomputable def iw_to_tau_real.naive (c : iw_to_tau_real) (inp : ℕ → ℂ) (out : ℕ → ℝ) :
    ℕ → ℝ :=
  (List.range c.ntau_).foldl
    (fun o i =>
      (List.range c.niw_).foldl
        (fun o1 k =>
          Function.update o1 i
            (o1 i + 2 / c.beta_ *
              (Real.cos (c.wt k i) * (inp k).re + Real.sin (c.wt k i) * (inp k).im)))
        o)
    out

/-- Fast path of `iw_to_tau_real::operator()`: the value of `ftau` for the time
index `n` at the point of the `assert`, given the plan after `execute()`. -/
noncomputable def iw_to_tau_real.ftau (c : iw_to_tau_real) (w : fftw.wrapper) (n : ℕ) :
    Option ℂ :=
  (w.read_out (n * c.oversampling_)).map fun v =>
    if c.stat_ = statistics.fermionic then
      v * ((2 / c.beta_ : ℝ) : ℂ) * Complex.exp ⟨0, -Real.pi * (n : ℝ) / (c.ntau_ : ℝ)⟩
    else v * ((2 / c.beta_ : ℝ) : ℂ)

/-- Condition of the `assert` in `iw_to_tau_real::operator()`. -/
def iw_to_tau_real.assertion (ftau : ℂ) : Prop :=
  |ftau.im| < 1e-10 * |ftau.re|

/-- Fast path of `iw_to_tau_real::operator()` up to the `assert` of the time
index `n`: the value of `ftau` that the assertion tests there (it does not
depend on the earlier time indices), `none` when the plan is not initialized
or a buffer access is out of range. -/
noncomputable def iw_to_tau_real.asserted (c : iw_to_tau_real) (inp : ℕ → ℂ) (n : ℕ) :
    Option ℂ :=
  match c.fft_ with
  | none => none
  | some w => (w.copy_in inp c.niw_).bind fun w1 => c.ftau w1.execute n

/-- The `assert` statement of `iw_to_tau_real::operator()`: the value passes
when the condition holds, and the call aborts (`none`) when it does not. -/
noncomputable def iw_to_tau_real.assert (ftau : ℂ) : Option ℂ :=
  @ite _ (iw_to_tau_real.assertion ftau) (Classical.propDecidable _) (some ftau) none

/-- Function `iw_to_tau_real::operator()(in, out)`: the object and the output
buffer after the call; `none` when a buffer access is out of range or the
`assert` aborts the call. -/
noncomputable def iw_to_tau_real.call (c : iw_to_tau_real) (inp : ℕ → ℂ) (out : ℕ → ℝ) :
    Option (iw_to_tau_real × (ℕ → ℝ)) :=
  match c.fft_ with
  | none => some (c, c.naive inp out)
  | some w =>
    (w.copy_in inp c.niw_).bind fun w1 =>
      ((List.range c.ntau_).foldlM
        (fun o n =>
          ((c.ftau w1.execute n).bind iw_to_tau_real.assert).map fun ftau =>
            Function.update o n (o n + ftau.re))
        out).map fun o => ({ c with fft_ := some w1.execute }, o)

/-! ## tau_to_iw_real -/

/-- Members of `class tau_to_iw_real`. -/
structure tau_to_iw_real where
  niw_ : ℕ
  ntau_ : ℕ
  oversampling_ : ℕ
  beta_ : ℝ
  stat_ : statistics
  fft_ : Option fftw.wrapper

/-- Constructor `tau_to_iw_real::tau_to_iw_real(ntau, niw, beta, stat, use_fftw)`.
The argument of `std::ceil` is the `unsigned` quotient `1 * niw/ntau`. -/
noncomputable def tau_to_iw_real.new (ntau niw : ℕ) (beta : ℝ) (stat : statistics)
    (use_fftw : Bool) : tau_to_iw_real :=
  { niw_ := niw
    ntau_ := ntau
    oversampling_ := ⌈((1 * niw / ntau : ℕ) : ℚ)⌉₊
    beta_ := beta
    stat_ := stat
    fft_ :=
      if use_fftw then
        some (fftw.wrapper.new (ntau * ⌈((1 * niw / ntau : ℕ) : ℚ)⌉₊) 1)
      else none }

/-- Local `double wt = M_PI * (2*k + (unsigned)stat_) * i/ntau_` of
`tau_to_iw_real::naive`. -/
noncomputable def tau_to_iw_real.wt (c : tau_to_iw_real) (k i : ℕ) : ℝ :=
  Real.pi * ((unsigned_wrap (2 * k + c.stat_.toNat) : ℕ) : ℝ) * (i : ℝ) / (c.ntau_ : ℝ)

/-- Function `tau_to_iw_real::naive(in, out)`: the output buffer after the
call. -/
noncomputable def tau_to_iw_real.naive (c : tau_to_iw_real) (inp : ℕ → ℝ) (out : ℕ → ℂ) :
    ℕ → ℂ :=
  (List.range c.niw_).foldl
    (fun o k =>
      (List.range c.ntau_).foldl
        (fun o1 i =>
          Function.update o1 k
            (o1 k + ((c.beta_ / (c.ntau_ : ℝ) : ℝ) : ℂ) *
              ⟨Real.cos (c.wt k i) * inp i, Real.sin (c.wt k i) * inp i⟩))
        o)
    out

/-- First loop of the fast path of `tau_to_iw_real::operator()`: the value
stored into the plan's input buffer for the time index `n`. -/
noncomputable def tau_to_iw_real.ftau (c : tau_to_iw_real) (inp : ℕ → ℝ) (n : ℕ) : ℂ :=
  if c.stat_ = statistics.fermionic then
    (inp n : ℂ) * Complex.exp ⟨0, Real.pi * (n : ℝ) / (c.ntau_ : ℝ)⟩
      * ((c.beta_ / (c.ntau_ : ℝ) : ℝ) : ℂ)
  else (inp n : ℂ) * ((c.beta_ / (c.ntau_ : ℝ) : ℝ) : ℂ)

/-- Function `tau_to_iw_real::operator()(in, out)`: the object and the output
buffer after the call. -/
noncomputable def tau_to_iw_real.call (c : tau_to_iw_real) (inp : ℕ → ℝ) (out : ℕ → ℂ) :
    Option (tau_to_iw_real × (ℕ → ℂ)) :=
  match c.fft_ with
  | none => some (c, c.naive inp out)
  | some w =>
    ((List.range c.ntau_).foldlM
      (fun (w0 : fftw.wrapper) (n : ℕ) => w0.write_in (n * c.oversampling_) (c.ftau inp n))
      w).bind fun w1 =>
      ((List.range c.niw_).foldlM
        (fun o i => (w1.execute.read_out i).map fun v => Function.update o i (o i + v))
        out).map fun o => ({ c with fft_ := some w1.execute }, o)

/-- Accessor `dft::in_size()`. -/
def dft.in_size (d : dft) : ℕ := d.n_

/-- Accessor `dft::out_size()`. -/
def dft.out_size (d : dft) : ℕ := d.n_

/-! ## iw_to_tau_model_real -/

/-- Modelled from the spec: `iw_to_tau_real::in_size()` (not declared in the
header among the sources), the number `niw` of frequency samples a call
reads. -/
def iw_to_tau_real.in_size (c : iw_to_tau_real) : ℕ := c.niw_

/-- Modelled from the spec: `iw_to_tau_real::out_size()` (not declared in the
header among the sources), the number `ntau` of time samples a call
accumulates into. -/
def iw_to_tau_real.out_size (c : iw_to_tau_real) : ℕ := c.ntau_

/-- Modelled from the spec: the analytic tail model (its class is not among
the sources), queried per frequency index, `fiw`, and per time value,
`ftau`; it has no state. -/
structure tail_model where
  fiw : ℕ → ℂ
  ftau : ℝ → ℝ

/-- Members of `class iw_to_tau_model_real` (its declaration is not among the
sources; the members are those the constructor initializes). The vector
`in_buffer_` has `transform_.in_size()` elements. -/
structure iw_to_tau_model_real where
  transform_ : iw_to_tau_real
  model_ : tail_model
  in_buffer_ : ℕ → ℂ

/-- First two statements of `iw_to_tau_model_real::operator()`: the internal
buffer after `std::copy` and after the loop `in_buffer_[n] -= model_.fiw(n)`. -/
noncomputable def iw_to_tau_model_real.subtracted (m : iw_to_tau_model_real) (inp : ℕ → ℂ) :
    ℕ → ℂ :=
  (List.range m.transform_.in_size).foldl
    (fun b n => Function.update b n (b n - m.model_.fiw n))
    (fun n => if n < m.transform_.in_size then inp n else m.in_buffer_ n)

/-- Function `iw_to_tau_model_real::operator()(in, out)`: the object and the
output buffer after the call. The tau grid `transform_.tau_value(n)` of the
converter is not among the sources and is a parameter. -/
noncomputable def iw_to_tau_model_real.call (m : iw_to_tau_model_real) (tau_value : ℕ → ℝ)
    (inp : ℕ → ℂ) (out : ℕ → ℝ) : Option (iw_to_tau_model_real × (ℕ → ℝ)) :=
  (m.transform_.call (m.subtracted inp) out).map fun r =>
    ({ transform_ := r.1, model_ := m.model_, in_buffer_ := m.subtracted inp },
      (List.range r.1.out_size).foldl
        (fun o n => Function.update o n (o n + m.model_.ftau (tau_value n))) r.2)

/-! ## apply -/

/-- A transformer as `apply` uses it: the sizes fixed at construction and
the call operator, which may change the object and has no defined result
where the transformer has none. -/
structure transformer (S In Out : Type) where
  in_size : S → ℕ
  out_size : S → ℕ
  call : S → (ℕ → In) → (ℕ → Out) → Option (S × (ℕ → Out))

/-- Ways a call of `apply` can end: it returns the vector (and leaves the
transformer in a new state), it throws `std::runtime_error("size mismatch")`,
or the transformer's call has no defined result. -/
inductive apply_result (S Out : Type) where
  | returned (tf : S) (out : List Out)
  | size_mismatch
  | undefined

/-- Function `apply(tf, in)` of `common.hpp`. The vector `in` is a list, `&in[0]`
the buffer of its elements, `out` a buffer of `tf.out_size()` zeros. -/
def apply {S In Out : Type} [Zero In] [Zero Out] (T : transformer S In Out) (tf : S)
    (inp : List In) : apply_result S Out :=
  if T.in_size tf ≠ inp.length then apply_result.size_mismatch
  else
    match T.call tf (fun i => inp.getD i 0) (fun _ => 0) with
    | some r => apply_result.returned r.1 ((List.range (T.out_size tf)).map r.2)
    | none => apply_result.undefined

/-! ## Loops as sums -/

section loops

variable {α : Type*} [AddCommMonoid α]

/-- An accumulation loop `acc += f j` over `j = 0..n-1` adds the sum of the
terms to the initial value. -/
theorem foldl_add_eq_sum (f : ℕ → α) (a : α) (n : ℕ) :
    (List.range n).foldl (fun acc j => acc + f j) a = a + ∑ j ∈ Finset.range n, f j := by
  induction n with
  | zero => simp
  | succ m ih =>
    rw [List.range_succ, List.foldl_append, ih]
    simp [Finset.sum_range_succ, add_assoc]

/-- A loop `out[i] += t k` over `k = 0..n-1` on one fixed slot `i` adds the sum
of the terms to that slot and leaves the other slots alone. -/
theorem foldl_update_single (t : ℕ → α) (i n : ℕ) (o : ℕ → α) :
    (List.range n).foldl (fun o1 k => Function.update o1 i (o1 i + t k)) o
      = Function.update o i (o i + ∑ k ∈ Finset.range n, t k) := by
  induction n with
  | zero => simp
  | succ m ih =>
    rw [List.range_succ, List.foldl_append, ih]
    simp [Finset.sum_range_succ, add_assoc]

/-- A loop `out[k] += g k` over `k = 0..n-1` adds `g k` to each of the first
`n` slots and leaves the other slots alone. -/
theorem foldl_update_each (g : ℕ → α) (n : ℕ) (out : ℕ → α) :
    (List.range n).foldl (fun o k => Function.update o k (o k + g k)) out
      = fun i => if i < n then out i + g i else out i := by
  induction n with
  | zero => simp
  | succ m ih =>
    rw [List.range_succ, List.foldl_append, ih]
    funext i
    simp only [List.foldl_cons, List.foldl_nil, lt_irrefl, if_false]
    by_cases him : i = m
    · subst him
      simp
    · rw [Function.update_noteq him]
      by_cases hlt : i < m
      · simp [hlt, Nat.lt_succ_of_lt hlt]
      · have : ¬ i < m + 1 := by omega
        simp [hlt, this]

/-- A loop over `k = 0..n-1` whose body may fail: when every step `k < n`
yields `g k`, the loop adds `g k` to each of the first `n` slots. -/
theorem foldlM_update_each (r : ℕ → Option α) (g : ℕ → α) (n : ℕ) (out : ℕ → α)
    (hr : ∀ k, k < n → r k = some (g k)) :
    (List.range n).foldlM (fun o k => (r k).map fun v => Function.update o k (o k + v)) out
      = some (fun i => if i < n then out i + g i else out i) := by
  induction n with
  | zero => simp
  | succ m ih =>
    rw [List.range_succ, List.foldlM_append, ih (fun k hk => hr k (Nat.lt_succ_of_lt hk))]
    simp only [Option.bind_eq_bind, Option.some_bind, List.foldlM_cons, List.foldlM_nil,
      hr m (Nat.lt_succ_self m), Option.map_some', lt_irrefl, if_false, Option.pure_def,
      Option.bind_some]
    congr 1
    funext i
    by_cases him : i = m
    · subst him
      simp
    · rw [Function.update_noteq him]
      by_cases hlt : i < m
      · simp [hlt, Nat.lt_succ_of_lt hlt]
      · have : ¬ i < m + 1 := by omega
        simp [hlt, this]

end loops

/-! ## Closed forms of the fallback paths -/

/-- A value below `2 ^ 32` is not changed by the reduction to `unsigned`. -/
theorem unsigned_wrap_of_lt {x : ℕ} (h : x < 2 ^ 32) : unsigned_wrap x = x :=
  Nat.mod_eq_of_lt h

/-- The inner loop of `dft::naive` computes the sum over `j`. -/
theorem dft_f_hat_eq (d : dft) (inp : ℕ → ℂ) (k : ℕ) :
    d.f_hat inp k
      = ∑ j ∈ Finset.range d.n_,
          Complex.exp ⟨0, d.p2piiIn * (k : ℝ) * (j : ℝ)⟩ * inp j := by
  unfold dft.f_hat
  rw [foldl_add_eq_sum]
  simp

/-- The buffer left by `dft::naive`, slot by slot. -/
theorem dft_naive_eq (d : dft) (inp out : ℕ → ℂ) :
    d.naive inp out = fun k => if k < d.n_ then out k + d.f_hat inp k else out k :=
  foldl_update_each _ _ _

/-- The argument of `std::exp` in `dft::naive` is `i·direction·2π·k·j/n`. -/
theorem dft_exponent_eq (d : dft) (k j : ℕ) :
    (⟨0, d.p2piiIn * (k : ℝ) * (j : ℝ)⟩ : ℂ)
      = Complex.I * (d.direction_ : ℂ) * (2 * (Real.pi : ℂ)) * (k : ℂ) * (j : ℂ) / (d.n_ : ℂ) := by
  rw [Complex.mk_eq_add_mul_I]
  unfold dft.p2piiIn
  push_cast
  ring

/-- The buffer left by `iw_to_tau_real::naive`, slot by slot. -/
theorem iw_to_tau_naive_eq (c : iw_to_tau_real) (inp : ℕ → ℂ) (out : ℕ → ℝ) :
    c.naive inp out = fun i =>
      if i < c.ntau_ then
        out i + ∑ k ∈ Finset.range c.niw_,
          2 / c.beta_ * (Real.cos (c.wt k i) * (inp k).re + Real.sin (c.wt k i) * (inp k).im)
      else out i := by
  unfold iw_to_tau_real.naive
  simp only [foldl_update_single]
  exact foldl_update_each _ _ _

/-- The buffer left by `tau_to_iw_real::naive`, slot by slot. -/
theorem tau_to_iw_naive_eq (c : tau_to_iw_real) (inp : ℕ → ℝ) (out : ℕ → ℂ) :
    c.naive inp out = fun k =>
      if k < c.niw_ then
        out k + ∑ i ∈ Finset.range c.ntau_,
          ((c.beta_ / (c.ntau_ : ℝ) : ℝ) : ℂ) *
            ⟨Real.cos (c.wt k i) * inp i, Real.sin (c.wt k i) * inp i⟩
      else out k := by
  unfold tau_to_iw_real.naive
  simp only [foldl_update_single]
  exact foldl_update_each _ _ _

/-- Without wrap-around the angle of `iw_to_tau_real::naive` is
`π·(2k + tag)·i/ntau`. -/
theorem iw_to_tau_wt_of_lt (c : iw_to_tau_real) {k : ℕ} (i : ℕ)
    (hk : 2 * k + c.stat_.toNat < 2 ^ 32) :
    c.wt k i = Real.pi * (2 * (k : ℝ) + (c.stat_.toNat : ℝ)) * (i : ℝ) / (c.ntau_ : ℝ) := by
  unfold iw_to_tau_real.wt
  rw [unsigned_wrap_of_lt hk]
  push_cast
  ring

/-- Without wrap-around the angle of `tau_to_iw_real::naive` is
`π·(2k + tag)·i/ntau`. -/
theorem tau_to_iw_wt_of_lt (c : tau_to_iw_real) {k : ℕ} (i : ℕ)
    (hk : 2 * k + c.stat_.toNat < 2 ^ 32) :
    c.wt k i = Real.pi * (2 * (k : ℝ) + (c.stat_.toNat : ℝ)) * (i : ℝ) / (c.ntau_ : ℝ) := by
  unfold tau_to_iw_real.wt
  rw [unsigned_wrap_of_lt hk]
  push_cast
  ring

/-- The statistics tag is `0` or `1`. -/
theorem statistics_toNat_le_one (s : statistics) : s.toNat ≤ 1 := by
  cases s <;> simp [statistics.toNat]

/-- An input with a single nonzero frequency `k0` contributes one term to each
slot of `iw_to_tau_real::naive`. -/
theorem iw_to_tau_naive_single (c : iw_to_tau_real) (inp : ℕ → ℂ) (out0 : ℕ → ℝ)
    (k0 i : ℕ) (hk0 : k0 < c.niw_) (hi : i < c.ntau_) (hinp : ∀ k, k ≠ k0 → inp k = 0) :
    c.naive inp out0 i
      = out0 i + 2 / c.beta_ *
          (Real.cos (c.wt k0 i) * (inp k0).re + Real.sin (c.wt k0 i) * (inp k0).im) := by
  rw [iw_to_tau_naive_eq]
  simp only [hi, if_true]
  rw [Finset.sum_eq_single k0]
  · intro k _ hk
    simp [hinp k hk]
  · intro h
    exact absurd (Finset.mem_range.mpr hk0) h

/-- An input with a single nonzero time sample `i0` contributes one term to
each slot of `tau_to_iw_real::naive`. -/
theorem tau_to_iw_naive_single (c : tau_to_iw_real) (inp : ℕ → ℝ) (out0 : ℕ → ℂ)
    (i0 k : ℕ) (hi0 : i0 < c.ntau_) (hk : k < c.niw_) (hinp : ∀ i, i ≠ i0 → inp i = 0) :
    c.naive inp out0 k
      = out0 k + ((c.beta_ / (c.ntau_ : ℝ) : ℝ) : ℂ) *
          ⟨Real.cos (c.wt k i0) * inp i0, Real.sin (c.wt k i0) * inp i0⟩ := by
  rw [tau_to_iw_naive_eq]
  simp only [hk, if_true]
  rw [Finset.sum_eq_single i0]
  · intro i _ hi
    rw [hinp i hi, mul_zero, mul_zero]
    exact mul_zero _
  · intro h
    exact absurd (Finset.mem_range.mpr hi0) h

/-- One term of `tau_to_iw_real::naive` written with `cos + i·sin`. -/
theorem tau_to_iw_term_eq (b : ℝ) (n : ℕ) (θ x : ℝ) :
    ((b / (n : ℝ) : ℝ) : ℂ) * (⟨Real.cos θ * x, Real.sin θ * x⟩ : ℂ)
      = (b : ℂ) / (n : ℂ)
          * ((((Real.cos θ : ℝ) : ℂ) + Complex.I * ((Real.sin θ : ℝ) : ℂ)) * (x : ℂ)) := by
  rw [Complex.mk_eq_add_mul_I]
  push_cast
  ring

/-- The output buffer of an executed plan inside its range. -/
theorem execute_read_out (w : fftw.wrapper) (k : ℕ) (hk : k < w.size) :
    w.execute.read_out k
      = some (∑ j ∈ Finset.range w.size,
          Complex.exp ((w.direction : ℂ) * (2 * (Real.pi : ℂ) * Complex.I) / (w.size : ℂ)
            * (k : ℂ) * (j : ℂ)) * w.inbuf j) := by
  simp [fftw.wrapper.execute, fftw.wrapper.read_out, hk]

/-- The angle `π·2^32/3` is `4π/3` up to full turns. -/
theorem cos_two_pow_32 : Real.cos (Real.pi * (2 * (2 ^ 31 : ℝ) + 0) * 1 / 3) = -1 / 2 := by
  have h : Real.pi * (2 * (2 ^ 31 : ℝ) + 0) * 1 / 3
      = Real.pi / 3 + Real.pi + ((715827882 : ℤ) : ℝ) * (2 * Real.pi) := by
    push_cast
    ring
  rw [h, Real.cos_add_int_mul_two_pi, Real.cos_add_pi, Real.cos_pi_div_three]
  norm_num

/-! ## Discrete orthogonality -/

/-- The sum of the `n` powers of the root of unity `exp(2πi·m/n)` is `n` when
`n` divides `m` and `0` otherwise. -/
theorem sum_exp_two_pi (n : ℕ) (hn : 0 < n) (m : ℤ) :
    ∑ i ∈ Finset.range n,
        Complex.exp (2 * (Real.pi : ℂ) * Complex.I * (m : ℂ) * (i : ℂ) / (n : ℂ))
      = if (n : ℤ) ∣ m then (n : ℂ) else 0 := by
  have hn0 : (n : ℂ) ≠ 0 := by exact_mod_cast hn.ne'
  have hpow : ∀ i : ℕ,
      Complex.exp (2 * (Real.pi : ℂ) * Complex.I * (m : ℂ) * (i : ℂ) / (n : ℂ))
        = Complex.exp (2 * (Real.pi : ℂ) * Complex.I * (m : ℂ) / (n : ℂ)) ^ i := by
    intro i
    rw [← Complex.exp_nat_mul]
    congr 1
    ring
  simp only [hpow]
  split_ifs with hdvd
  · obtain ⟨q, rfl⟩ := hdvd
    have h1 : Complex.exp (2 * (Real.pi : ℂ) * Complex.I * (((n : ℤ) * q : ℤ) : ℂ) / (n : ℂ))
        = 1 := by
      have : 2 * (Real.pi : ℂ) * Complex.I * (((n : ℤ) * q : ℤ) : ℂ) / (n : ℂ)
          = (q : ℂ) * (2 * (Real.pi : ℂ) * Complex.I) := by
        push_cast
        field_simp
        ring
      rw [this, Complex.exp_int_mul_two_pi_mul_I]
    rw [h1]
    simp
  · have hne : Complex.exp (2 * (Real.pi : ℂ) * Complex.I * (m : ℂ) / (n : ℂ)) ≠ 1 := by
      intro h
      rw [Complex.exp_eq_one_iff] at h
      obtain ⟨q, hq⟩ := h
      apply hdvd
      refine ⟨q, ?_⟩
      have hpi : (2 * (Real.pi : ℂ) * Complex.I) ≠ 0 := by
        simp [Real.pi_ne_zero]
      have h2 : (m : ℂ) = (n : ℂ) * (q : ℂ) := by
        field_simp at hq
        have h3 : (2 * (Real.pi : ℂ) * Complex.I) * (m : ℂ)
            = (2 * (Real.pi : ℂ) * Complex.I) * ((n : ℂ) * (q : ℂ)) := by
          linear_combination hq
        exact mul_left_cancel₀ hpi h3
      exact_mod_cast h2
    rw [geom_sum_eq hne]
    have hone : Complex.exp (2 * (Real.pi : ℂ) * Complex.I * (m : ℂ) / (n : ℂ)) ^ n = 1 := by
      rw [← Complex.exp_nat_mul]
      have : (n : ℂ) * (2 * (Real.pi : ℂ) * Complex.I * (m : ℂ) / (n : ℂ))
          = (m : ℂ) * (2 * (Real.pi : ℂ) * Complex.I) := by
        field_simp
        ring
      rw [this, Complex.exp_int_mul_two_pi_mul_I]
    simp [hone]

/-- A complex number built from `cos θ · x` and `sin θ · x` is `exp(iθ)·x`. -/
theorem mk_cos_sin_mul (θ x : ℝ) :
    (⟨Real.cos θ * x, Real.sin θ * x⟩ : ℂ) = Complex.exp ((θ : ℂ) * Complex.I) * (x : ℂ) := by
  rw [Complex.exp_mul_I]
  apply Complex.ext <;>
    simp [Complex.cos_ofReal_re, Complex.sin_ofReal_re, Complex.cos_ofReal_im,
      Complex.sin_ofReal_im]

/-- The term `cos φ · Re F + sin φ · Im F` of the frequency to time sum is the
real part of `exp(-iφ)·F`; multiplied by `exp(iθ)` it splits into a difference
and a sum frequency. -/
theorem exp_mul_re_part (θ φ : ℝ) (F : ℂ) :
    Complex.exp ((θ : ℂ) * Complex.I) * ((Real.cos φ * F.re + Real.sin φ * F.im : ℝ) : ℂ)
      = (Complex.exp (((θ - φ : ℝ) : ℂ) * Complex.I) * F
          + Complex.exp (((θ + φ : ℝ) : ℂ) * Complex.I) * (starRingEnd ℂ) F) / 2 := by
  have h1 : Complex.exp (((θ - φ : ℝ) : ℂ) * Complex.I)
      = Complex.exp ((θ : ℂ) * Complex.I) * Complex.exp (((-φ : ℝ) : ℂ) * Complex.I) := by
    rw [← Complex.exp_add]
    congr 1
    push_cast
    ring
  have h2 : Complex.exp (((θ + φ : ℝ) : ℂ) * Complex.I)
      = Complex.exp ((θ : ℂ) * Complex.I) * Complex.exp ((φ : ℂ) * Complex.I) := by
    rw [← Complex.exp_add]
    congr 1
    push_cast
    ring
  have key : ((Real.cos φ * F.re + Real.sin φ * F.im : ℝ) : ℂ)
      = (Complex.exp (((-φ : ℝ) : ℂ) * Complex.I) * F
          + Complex.exp ((φ : ℂ) * Complex.I) * (starRingEnd ℂ) F) / 2 := by
    rw [Complex.exp_mul_I, Complex.exp_mul_I]
    apply Complex.ext
    · simp [Complex.cos_ofReal_re, Complex.sin_ofReal_re, Complex.cos_ofReal_im,
        Complex.sin_ofReal_im]
    · simp [Complex.cos_ofReal_re, Complex.sin_ofReal_re, Complex.cos_ofReal_im,
        Complex.sin_ofReal_im]
      ring
  rw [h1, h2, key]
  ring

/-- One term of the composed transforms: the factors `beta/ntau` and `2/beta`
leave `1/ntau`. -/
theorem round_trip_term (beta : ℝ) (n : ℕ) (hb : beta ≠ 0) (θ φ : ℝ) (F : ℂ) :
    ((beta / (n : ℝ) : ℝ) : ℂ) * (Complex.exp ((θ : ℂ) * Complex.I)
        * ((2 / beta * (Real.cos φ * F.re + Real.sin φ * F.im) : ℝ) : ℂ))
      = 1 / (n : ℂ) * (Complex.exp (((θ - φ : ℝ) : ℂ) * Complex.I) * F
          + Complex.exp (((θ + φ : ℝ) : ℂ) * Complex.I) * (starRingEnd ℂ) F) := by
  have hb1 : (beta : ℂ) ≠ 0 := by exact_mod_cast hb
  have h := exp_mul_re_part θ φ F
  have hc : ((beta / (n : ℝ) : ℝ) : ℂ) * ((2 / beta : ℝ) : ℂ) = 2 / (n : ℂ) := by
    push_cast
    rw [div_mul_div_comm, mul_comm (beta : ℂ) 2, mul_div_mul_right _ _ hb1]
  rw [Complex.ofReal_mul]
  calc ((beta / (n : ℝ) : ℝ) : ℂ) * (Complex.exp ((θ : ℂ) * Complex.I)
        * (((2 / beta : ℝ) : ℂ) * ((Real.cos φ * F.re + Real.sin φ * F.im : ℝ) : ℂ)))
      = ((beta / (n : ℝ) : ℝ) : ℂ) * ((2 / beta : ℝ) : ℂ)
          * (Complex.exp ((θ : ℂ) * Complex.I)
            * ((Real.cos φ * F.re + Real.sin φ * F.im : ℝ) : ℂ)) := by ring
    _ = 1 / (n : ℂ) * (Complex.exp (((θ - φ : ℝ) : ℂ) * Complex.I) * F
          + Complex.exp (((θ + φ : ℝ) : ℂ) * Complex.I) * (starRingEnd ℂ) F) := by
      rw [hc, h]
      ring

/-- The composition of the two fallback paths, for sizes without wrap-around:
the frequency `k` receives `F k1` from every `k1` congruent to `k` modulo
`ntau` and the conjugate of `F k1` from every `k1` with `k + k1 + tag`
divisible by `ntau`. -/
theorem round_trip_aliasing (niw ntau : ℕ) (beta : ℝ) (stat : statistics) (u1 u2 : Bool)
    (F : ℕ → ℂ) (k : ℕ) (hn : 0 < ntau) (hb : beta ≠ 0) (hniw : niw ≤ 2 ^ 31) (hk : k < niw) :
    (tau_to_iw_real.new ntau niw beta stat u2).naive
        ((iw_to_tau_real.new niw ntau beta stat u1).naive F (fun _ => 0)) (fun _ => 0) k
      = ∑ k1 ∈ Finset.range niw,
          ((if (ntau : ℤ) ∣ (k : ℤ) - (k1 : ℤ) then F k1 else 0)
            + (if (ntau : ℤ) ∣ (k : ℤ) + (k1 : ℤ) + (stat.toNat : ℤ)
                then (starRingEnd ℂ) (F k1) else 0)) := by
  have hwrap : ∀ j, j < niw → 2 * j + stat.toNat < 2 ^ 32 := by
    intro j hj
    have := statistics_toNat_le_one stat
    omega
  have hn0 : (ntau : ℂ) ≠ 0 := by exact_mod_cast hn.ne'
  have hnR : (ntau : ℝ) ≠ 0 := by exact_mod_cast hn.ne'
  rw [tau_to_iw_naive_eq, iw_to_tau_naive_eq]
  have hterm : ∀ i ∈ Finset.range ntau,
      ((beta / (ntau : ℝ) : ℝ) : ℂ) *
        (⟨Real.cos ((tau_to_iw_real.new ntau niw beta stat u2).wt k i) *
            (if i < ntau then
              (0 : ℝ) + ∑ k1 ∈ Finset.range niw, 2 / beta *
                (Real.cos ((iw_to_tau_real.new niw ntau beta stat u1).wt k1 i) * (F k1).re
                  + Real.sin ((iw_to_tau_real.new niw ntau beta stat u1).wt k1 i) * (F k1).im)
            else 0),
          Real.sin ((tau_to_iw_real.new ntau niw beta stat u2).wt k i) *
            (if i < ntau then
              (0 : ℝ) + ∑ k1 ∈ Finset.range niw, 2 / beta *
                (Real.cos ((iw_to_tau_real.new niw ntau beta stat u1).wt k1 i) * (F k1).re
                  + Real.sin ((iw_to_tau_real.new niw ntau beta stat u1).wt k1 i) * (F k1).im)
            else 0)⟩ : ℂ)
      = ∑ k1 ∈ Finset.range niw, 1 / (ntau : ℂ) *
          (Complex.exp (2 * (Real.pi : ℂ) * Complex.I * (((k : ℤ) - (k1 : ℤ) : ℤ) : ℂ)
              * (i : ℂ) / (ntau : ℂ)) * F k1
            + Complex.exp (2 * (Real.pi : ℂ) * Complex.I
              * (((k : ℤ) + (k1 : ℤ) + (stat.toNat : ℤ) : ℤ) : ℂ) * (i : ℂ) / (ntau : ℂ))
              * (starRingEnd ℂ) (F k1)) := by
    intro i hi
    rw [if_pos (Finset.mem_range.mp hi), zero_add, mk_cos_sin_mul, Complex.ofReal_sum,
      Finset.mul_sum, Finset.mul_sum]
    apply Finset.sum_congr rfl
    intro k1 hk1
    rw [round_trip_term beta ntau hb]
    rw [tau_to_iw_wt_of_lt _ i (hwrap k hk),
      iw_to_tau_wt_of_lt _ i (hwrap k1 (Finset.mem_range.mp hk1))]
    congr 2
    · congr 2
      simp only [tau_to_iw_real.new, iw_to_tau_real.new]
      push_cast
      field_simp
      ring
    · congr 2
      simp only [tau_to_iw_real.new, iw_to_tau_real.new]
      push_cast
      field_simp
      ring
  simp only [tau_to_iw_real.new, iw_to_tau_real.new] at hterm ⊢
  rw [if_pos hk, zero_add, Finset.sum_congr rfl hterm, Finset.sum_comm]
  apply Finset.sum_congr rfl
  intro k1 _
  rw [← Finset.mul_sum, Finset.sum_add_distrib, ← Finset.sum_mul, ← Finset.sum_mul,
    sum_exp_two_pi ntau hn, sum_exp_two_pi ntau hn]
  split_ifs
  · field_simp
    ring
  · field_simp
  · field_simp
  · field_simp

/-- On a time grid with `2·niw ≤ ntau` the composition of the two fallback
paths returns every frequency unchanged, except the bosonic zero mode, which
comes back as twice its real part. -/
theorem round_trip_fine_grid (niw ntau : ℕ) (beta : ℝ) (stat : statistics) (u1 u2 : Bool)
    (F : ℕ → ℂ) (k : ℕ) (hb : 0 < beta) (hgrid : 2 * niw ≤ ntau) (hntau : ntau < 2 ^ 32)
    (hk : k < niw) :
    (tau_to_iw_real.new ntau niw beta stat u2).naive
        ((iw_to_tau_real.new niw ntau beta stat u1).naive F (fun _ => 0)) (fun _ => 0) k
      = if stat = statistics.bosonic ∧ k = 0 then ((2 * (F 0).re : ℝ) : ℂ) else F k := by
  have htag := statistics_toNat_le_one stat
  rw [round_trip_aliasing niw ntau beta stat u1 u2 F k (by omega) hb.ne' (by omega) hk]
  have h1 : ∀ k1 ∈ Finset.range niw,
      ((if (ntau : ℤ) ∣ (k : ℤ) - (k1 : ℤ) then F k1 else 0)
        + (if (ntau : ℤ) ∣ (k : ℤ) + (k1 : ℤ) + (stat.toNat : ℤ)
            then (starRingEnd ℂ) (F k1) else 0))
      = (if k = k1 then F k1 else 0)
        + (if 0 = k1 then (if stat = statistics.bosonic ∧ k = 0
            then (starRingEnd ℂ) (F k1) else 0) else 0) := by
    intro k1 hk1
    have hk1 := Finset.mem_range.mp hk1
    congr 1
    · by_cases hkk : k = k1
      · simp [hkk]
      · rw [if_neg hkk, if_neg]
        intro hdvd
        have := Int.eq_zero_of_abs_lt_dvd hdvd (by rw [abs_lt]; constructor <;> omega)
        omega
    · by_cases hz : (k : ℤ) + (k1 : ℤ) + (stat.toNat : ℤ) = 0
      · have hk0 : k = 0 := by omega
        have hk10 : k1 = 0 := by omega
        have hs : stat = statistics.bosonic := by
          cases stat
          · rfl
          · simp [statistics.toNat] at hz
            omega
        simp [hk0, hk10, hs, statistics.toNat]
      · rw [if_neg]
        · by_cases h0 : 0 = k1
          · rw [if_pos h0, if_neg]
            rintro ⟨hs, hk0⟩
            apply hz
            subst hs
            simp [statistics.toNat, hk0, ← h0]
          · rw [if_neg h0]
        · intro hdvd
          have := Int.eq_zero_of_abs_lt_dvd hdvd (by rw [abs_lt]; constructor <;> omega)
          exact hz this
  rw [Finset.sum_congr rfl h1, Finset.sum_add_distrib, Finset.sum_ite_eq, Finset.sum_ite_eq,
    if_pos (Finset.mem_range.mpr hk), if_pos (Finset.mem_range.mpr (by omega))]
  by_cases hc : stat = statistics.bosonic ∧ k = 0
  · rw [if_pos hc, if_pos hc, hc.2, Complex.add_conj]
  · rw [if_neg hc, if_neg hc, add_zero]

/-! ## Claims -/

/-- Claim C1, evaluated at the scenario of the specification (`niw = 4`,
`ntau = 8`, `beta = 1`, bosonic, all-ones input, zero output buffer): the
constructor builds a plan of size `8 * 0 = 0`, so the fast path of
`iw_to_tau_real::operator()` copies four samples into a buffer without slots
and has no defined result, while `iw_to_tau_real::naive` adds `8` to `out[0]`.
For `niw = 3`, `ntau = 2` the plan has two slots for three samples. -/
theorem iw_to_tau_real_fast_path_at_scenario :
    (iw_to_tau_real.new 4 8 1 statistics.bosonic true).call (fun _ => 1) (fun _ => 0) = none
      ∧ (iw_to_tau_real.new 4 8 1 statistics.bosonic true).naive (fun _ => 1) (fun _ => 0) 0
          = 8
      ∧ (iw_to_tau_real.new 3 2 1 statistics.bosonic true).call (fun _ => 1) (fun _ => 0)
          = none := by
  refine ⟨?_, ?_, ?_⟩
  · simp [iw_to_tau_real.call, iw_to_tau_real.new, fftw.wrapper.new, fftw.wrapper.copy_in]
  · rw [iw_to_tau_naive_eq]
    simp [iw_to_tau_real.new, iw_to_tau_real.wt]
    norm_num
  · simp [iw_to_tau_real.call, iw_to_tau_real.new, fftw.wrapper.new, fftw.wrapper.copy_in]

/-- Claim C2, evaluated at `niw = 4`, `ntau = 8` and at `niw = 3`, `ntau = 2`:
both constructors store the truncated quotient (`0` and `1`), while the
ceiling of the real quotient is `1` and `2`. -/
theorem oversampling_is_truncated_quotient :
    (iw_to_tau_real.new 4 8 1 statistics.bosonic true).oversampling_ = 0
      ∧ (tau_to_iw_real.new 8 4 1 statistics.bosonic true).oversampling_ = 0
      ∧ ⌈((4 : ℝ) / 8)⌉₊ = 1
      ∧ (iw_to_tau_real.new 3 2 1 statistics.bosonic true).oversampling_ = 1
      ∧ (tau_to_iw_real.new 2 3 1 statistics.bosonic true).oversampling_ = 1
      ∧ ⌈((3 : ℝ) / 2)⌉₊ = 2 := by
  refine ⟨by simp [iw_to_tau_real.new], by simp [tau_to_iw_real.new], ?_,
    by simp [iw_to_tau_real.new], by simp [tau_to_iw_real.new], ?_⟩
  · rw [Nat.ceil_eq_iff] <;> norm_num
  · rw [Nat.ceil_eq_iff] <;> norm_num

/-- Claim C3, evaluated at `niw = 4`, `ntau = 8`: the oversampling factor stored
by both constructors is `0`, not `≥ 1`, and the padded length `8 * 0 = 0` is
smaller than `niw = 4`; the plan is built with size `0`. At `niw = 3`,
`ntau = 2` the factor is `1` and the padded length `2` is smaller than `3`. -/
theorem oversampling_invariant_at_scenario :
    ¬ (1 ≤ (iw_to_tau_real.new 4 8 1 statistics.bosonic true).oversampling_)
      ∧ ¬ (4 ≤ 8 * (iw_to_tau_real.new 4 8 1 statistics.bosonic true).oversampling_)
      ∧ ¬ (1 ≤ (tau_to_iw_real.new 8 4 1 statistics.bosonic true).oversampling_)
      ∧ ¬ (4 ≤ 8 * (tau_to_iw_real.new 8 4 1 statistics.bosonic true).oversampling_)
      ∧ ((iw_to_tau_real.new 4 8 1 statistics.bosonic true).fft_.map fun w => w.size) = some 0
      ∧ ((tau_to_iw_real.new 8 4 1 statistics.bosonic true).fft_.map fun w => w.size) = some 0
      ∧ ¬ (3 ≤ 2 * (iw_to_tau_real.new 3 2 1 statistics.bosonic true).oversampling_) := by
  simp [iw_to_tau_real.new, tau_to_iw_real.new, fftw.wrapper.new]

/-- Claim C4, evaluated at `niw = 1`, `ntau = 1`, `beta = 1`, bosonic: the call
for the input `[i]` aborts; every buffer access of the fast path is in range,
for the input `[i]` the asserted value is `ftau = 2i`, with `|Im ftau| = 2` and
`|Re ftau| = 0`, and for the input `[0]` it is `ftau = 0`; neither satisfies
the strict inequality of the `assert`. -/
theorem iw_to_tau_real_assertion_at_scenario :
    (iw_to_tau_real.new 1 1 1 statistics.bosonic true).call (fun _ => Complex.I)
        (fun _ => 0) = none
      ∧ (iw_to_tau_real.new 1 1 1 statistics.bosonic true).asserted (fun _ => Complex.I) 0
        = some (2 * Complex.I)
      ∧ ¬ iw_to_tau_real.assertion (2 * Complex.I)
      ∧ (iw_to_tau_real.new 1 1 1 statistics.bosonic true).asserted (fun _ => 0) 0 = some 0
      ∧ ¬ iw_to_tau_real.assertion 0 := by
  refine ⟨?_, ?_, ?_, ?_, ?_⟩
  · simp [iw_to_tau_real.call, iw_to_tau_real.new, fftw.wrapper.new, fftw.wrapper.copy_in,
      iw_to_tau_real.ftau, fftw.wrapper.read_out, fftw.wrapper.execute, List.range_succ,
      iw_to_tau_real.assert, iw_to_tau_real.assertion]
  · simp [iw_to_tau_real.asserted, iw_to_tau_real.new, fftw.wrapper.new, fftw.wrapper.copy_in,
      iw_to_tau_real.ftau, fftw.wrapper.read_out, fftw.wrapper.execute]
    ring
  · simp [iw_to_tau_real.assertion]
  · simp [iw_to_tau_real.asserted, iw_to_tau_real.new, fftw.wrapper.new, fftw.wrapper.copy_in,
      iw_to_tau_real.ftau, fftw.wrapper.read_out, fftw.wrapper.execute]
  · simp [iw_to_tau_real.assertion]

/-- Claim C5 as stated fails: for bosonic statistics, `niw = 1`, `ntau = 2`,
`beta = 1`, and for fermionic statistics, `niw = 1`, `ntau = 1`, `beta = 1`, the
sequence `F = [1]` transformed to the time grid and back does not return
`F[0]` (it returns `2`). -/
theorem round_trip_not_identity :
    (tau_to_iw_real.new 2 1 1 statistics.bosonic false).naive
          ((iw_to_tau_real.new 1 2 1 statistics.bosonic false).naive (fun _ => 1) (fun _ => 0))
          (fun _ => 0) 0
        ≠ (fun _ => (1 : ℂ)) 0
      ∧ (tau_to_iw_real.new 1 1 1 statistics.fermionic false).naive
          ((iw_to_tau_real.new 1 1 1 statistics.fermionic false).naive (fun _ => 1) (fun _ => 0))
          (fun _ => 0) 0
        ≠ (fun _ => (1 : ℂ)) 0 := by
  constructor
  · rw [round_trip_fine_grid 1 2 1 statistics.bosonic false false (fun _ => 1) 0 one_pos
      (by norm_num) (by norm_num) one_pos]
    norm_num
  · rw [round_trip_aliasing 1 1 1 statistics.fermionic false false (fun _ => 1) 0 one_pos
      one_ne_zero (by norm_num) one_pos]
    simp [statistics.toNat]

/-- Claim C5, amended: for `niw > 0`, `beta > 0` and a time grid with
`2·niw ≤ ntau` (`ntau` an `unsigned` value), transforming a frequency sequence
`F` with `iw_to_tau_real` into a zero buffer and the result back with
`tau_to_iw_real` into a zero buffer (both on the fallback path, same sizes,
`beta` and statistics) yields `F[k]` at every `k < niw`, except at the bosonic
zero mode, where it yields `2·Re F[0]`. -/
theorem round_trip_on_fine_grid (niw ntau : ℕ) (beta : ℝ) (stat : statistics) (F : ℕ → ℂ)
    (k : ℕ) (_hniw : 0 < niw) (hb : 0 < beta) (hgrid : 2 * niw ≤ ntau) (hntau : ntau < 2 ^ 32)
    (hk : k < niw) :
    (tau_to_iw_real.new ntau niw beta stat false).naive
        ((iw_to_tau_real.new niw ntau beta stat false).naive F (fun _ => 0)) (fun _ => 0) k
      = if stat = statistics.bosonic ∧ k = 0 then ((2 * (F 0).re : ℝ) : ℂ) else F k :=
  round_trip_fine_grid niw ntau beta stat false false F k hb hgrid hntau hk

/-- Instance of the amended claim C5: fermionic, `niw = 2`, `ntau = 4`,
`beta = 1`, `F = [i, 1]`, frequency `k = 1`. -/
theorem round_trip_on_fine_grid_witness :
    0 < 2 ∧ (0 : ℝ) < 1 ∧ 2 * 2 ≤ 4 ∧ 4 < 2 ^ 32 ∧ 1 < 2
      ∧ (tau_to_iw_real.new 4 2 1 statistics.fermionic false).naive
          ((iw_to_tau_real.new 2 4 1 statistics.fermionic false).naive
            (fun k => if k = 0 then Complex.I else 1) (fun _ => 0)) (fun _ => 0) 1
        = if statistics.fermionic = statistics.bosonic ∧ 1 = 0
            then ((2 * ((fun k => if k = 0 then Complex.I else 1) 0).re : ℝ) : ℂ)
            else (fun k => if k = 0 then Complex.I else 1) 1 :=
  ⟨by norm_num, by norm_num, by norm_num, by norm_num, by norm_num,
    round_trip_on_fine_grid 2 4 1 statistics.fermionic (fun k => if k = 0 then Complex.I else 1)
      1 (by norm_num) (by norm_num) (by norm_num) (by norm_num) (by norm_num)⟩

/-- Claim C6: for a transform of size `n` and direction `+1` or `-1`,
`dft::naive` leaves `out[k] = out0[k] + Σ_{j<n} exp(i·direction·2π·k·j/n)·in[j]`
for every `k < n`: it accumulates into the output buffer. -/
theorem dft_naive_postcondition (d : dft) (inp out0 : ℕ → ℂ) (k : ℕ)
    (_hdir : d.direction_ = 1 ∨ d.direction_ = -1) (hk : k < d.n_) :
    d.naive inp out0 k
      = out0 k + ∑ j ∈ Finset.range d.n_,
          Complex.exp (Complex.I * (d.direction_ : ℂ) * (2 * (Real.pi : ℂ)) * (k : ℂ) * (j : ℂ)
            / (d.n_ : ℂ)) * inp j := by
  rw [dft_naive_eq]
  simp only [hk, if_true, dft_f_hat_eq, dft_exponent_eq]

/-- Instance of claim C6: size `4`, direction `+1`, all-ones
input, zero output buffer, slot `k = 1`. -/
theorem dft_naive_postcondition_witness :
    ((dft.new 4 1 false).direction_ = 1 ∨ (dft.new 4 1 false).direction_ = -1)
      ∧ 1 < (dft.new 4 1 false).n_
      ∧ (dft.new 4 1 false).naive (fun _ => 1) (fun _ => 0) 1
          = (fun _ => (0 : ℂ)) 1 + ∑ j ∈ Finset.range (dft.new 4 1 false).n_,
              Complex.exp (Complex.I * ((dft.new 4 1 false).direction_ : ℂ)
                * (2 * (Real.pi : ℂ)) * ((1 : ℕ) : ℂ) * (j : ℂ)
                / ((dft.new 4 1 false).n_ : ℂ)) * (fun _ => (1 : ℂ)) j :=
  ⟨Or.inl rfl, by simp [dft.new],
    dft_naive_postcondition (dft.new 4 1 false) (fun _ => 1) (fun _ => 0) 1 (Or.inl rfl)
      (by simp [dft.new])⟩

/-- Claim C7: for a transform of size `n > 0` and direction `+1` or `-1` whose
backend plan is initialized (a plan of that size and direction, whatever its
buffers hold), `dft::operator()` leaves the caller's output buffer equal,
element by element, to what `dft::naive` leaves. -/
theorem dft_call_eq_naive (d : dft) (w : fftw.wrapper) (inp out0 : ℕ → ℂ)
    (_hn : 0 < d.n_) (_hdir : d.direction_ = 1 ∨ d.direction_ = -1)
    (hplan : d.fftw_ = some w) (hsize : w.size = d.n_) (hwdir : w.direction = d.direction_) :
    (d.call inp out0).map Prod.snd = some (d.naive inp out0) := by
  have hcopy : w.copy_in inp d.n_
      = some { w with inbuf := fun i => if i < d.n_ then inp i else w.inbuf i } := by
    simp [fftw.wrapper.copy_in, hsize]
  have hread : ∀ k, k < d.n_ →
      (fftw.wrapper.execute
        { w with inbuf := fun i => if i < d.n_ then inp i else w.inbuf i }).read_out k
        = some (d.f_hat inp k) := by
    intro k hk
    rw [execute_read_out _ k (by simpa [hsize] using hk), dft_f_hat_eq]
    congr 1
    simp only [hsize, hwdir]
    apply Finset.sum_congr rfl
    intro j hj
    rw [if_pos (Finset.mem_range.mp hj), dft_exponent_eq]
    congr 2
    ring
  simp only [dft.call, hplan, hcopy, Option.some_bind]
  rw [foldlM_update_each _ (fun k => d.f_hat inp k) d.n_ out0 hread, dft_naive_eq]
  simp

/-- Instance of claim C7: the object built by `dft(4, -1, true)`,
all-ones input, zero output buffer. -/
theorem dft_call_eq_naive_witness :
    0 < (dft.new 4 (-1) true).n_
      ∧ ((dft.new 4 (-1) true).direction_ = 1 ∨ (dft.new 4 (-1) true).direction_ = -1)
      ∧ (dft.new 4 (-1) true).fftw_ = some (fftw.wrapper.new 4 (-1))
      ∧ (fftw.wrapper.new 4 (-1)).size = (dft.new 4 (-1) true).n_
      ∧ (fftw.wrapper.new 4 (-1)).direction = (dft.new 4 (-1) true).direction_
      ∧ ((dft.new 4 (-1) true).call (fun _ => 1) (fun _ => 0)).map Prod.snd
          = some ((dft.new 4 (-1) true).naive (fun _ => 1) (fun _ => 0)) :=
  ⟨by simp [dft.new], Or.inr rfl, rfl, rfl, rfl,
    dft_call_eq_naive (dft.new 4 (-1) true) (fftw.wrapper.new 4 (-1)) (fun _ => 1) (fun _ => 0)
      (by simp [dft.new]) (Or.inr rfl) rfl rfl rfl⟩

/-- Claim C8 as stated fails beyond `niw = 2^31`: for `niw = 2^31 + 1`,
`ntau = 3`, `beta = 1`, bosonic, an input that is `1` at the frequency `2^31`
and `0` elsewhere and a zero output buffer, the `unsigned` value `2*k` wraps
to `0` at `k = 2^31`, and `iw_to_tau_real::naive` leaves `out[1] = 2`, while the
stated sum with `wt = π·(2k+tag)·i/ntau` is `2·cos(π·2^32/3) = -1`. -/
theorem iw_to_tau_real_naive_wraps :
    (iw_to_tau_real.new (2 ^ 31 + 1) 3 1 statistics.bosonic false).naive
        (fun k => if k = 2 ^ 31 then 1 else 0) (fun _ => 0) 1
      ≠ (fun _ => (0 : ℝ)) 1 + 2 / 1 * ∑ k ∈ Finset.range (2 ^ 31 + 1),
          (Real.cos (Real.pi * (2 * (k : ℝ) + (statistics.bosonic.toNat : ℝ)) * ((1 : ℕ) : ℝ)
              / ((3 : ℕ) : ℝ)) * ((fun k => if k = 2 ^ 31 then (1 : ℂ) else 0) k).re
            + Real.sin (Real.pi * (2 * (k : ℝ) + (statistics.bosonic.toNat : ℝ)) * ((1 : ℕ) : ℝ)
              / ((3 : ℕ) : ℝ)) * ((fun k => if k = 2 ^ 31 then (1 : ℂ) else 0) k).im) := by
  have hcode : (iw_to_tau_real.new (2 ^ 31 + 1) 3 1 statistics.bosonic false).naive
        (fun k => if k = 2 ^ 31 then 1 else 0) (fun _ => 0) 1 = 2 := by
    rw [iw_to_tau_naive_single _ _ _ (2 ^ 31) 1 (by simp [iw_to_tau_real.new])
      (by simp [iw_to_tau_real.new]) (fun k hk => if_neg hk)]
    simp [iw_to_tau_real.new, iw_to_tau_real.wt, unsigned_wrap, statistics.toNat]
  have hclaim : ∑ k ∈ Finset.range (2 ^ 31 + 1),
          (Real.cos (Real.pi * (2 * (k : ℝ) + (statistics.bosonic.toNat : ℝ)) * ((1 : ℕ) : ℝ)
              / ((3 : ℕ) : ℝ)) * ((fun k => if k = 2 ^ 31 then (1 : ℂ) else 0) k).re
            + Real.sin (Real.pi * (2 * (k : ℝ) + (statistics.bosonic.toNat : ℝ)) * ((1 : ℕ) : ℝ)
              / ((3 : ℕ) : ℝ)) * ((fun k => if k = 2 ^ 31 then (1 : ℂ) else 0) k).im)
        = -1 / 2 := by
    rw [Finset.sum_eq_single (2 ^ 31)]
    · have := cos_two_pow_32
      simp only [statistics.toNat, Nat.cast_zero, Nat.cast_one, Nat.cast_ofNat, Nat.cast_pow,
        if_true, Complex.one_re, Complex.one_im, mul_one, mul_zero, add_zero] at this ⊢
      exact this
    · intro k _ hk
      simp only [if_neg hk, Complex.zero_re, Complex.zero_im, mul_zero, add_zero]
    · intro h
      exact absurd (Finset.mem_range.mpr (Nat.lt_succ_self _)) h
  rw [hcode, hclaim]
  norm_num

/-- Claim C8, amended: for `0 < niw ≤ 2^31` (so that the `unsigned` value
`2k + tag` does not wrap), `beta > 0` and every time index `i < ntau`,
`iw_to_tau_real::naive` leaves
`out[i] = out0[i] + (2/beta)·Σ_{k<niw} (cos(wt)·Re in[k] + sin(wt)·Im in[k])`
with `wt = π·(2k+tag)·i/ntau`; in particular a fermionic input that is `1` at
index `0` and `0` elsewhere gives, from `out0[i] = 0`,
`out[i] = (2/beta)·cos(π·i/ntau)`. -/
theorem iw_to_tau_real_naive_postcondition (niw ntau : ℕ) (beta : ℝ) (stat : statistics)
    (u : Bool) (inp : ℕ → ℂ) (out0 : ℕ → ℝ) (i : ℕ)
    (hniw : 0 < niw) (hle : niw ≤ 2 ^ 31) (_hbeta : 0 < beta) (hi : i < ntau) :
    (iw_to_tau_real.new niw ntau beta stat u).naive inp out0 i
        = out0 i + 2 / beta * ∑ k ∈ Finset.range niw,
            (Real.cos (Real.pi * (2 * (k : ℝ) + (stat.toNat : ℝ)) * (i : ℝ) / (ntau : ℝ))
                * (inp k).re
              + Real.sin (Real.pi * (2 * (k : ℝ) + (stat.toNat : ℝ)) * (i : ℝ) / (ntau : ℝ))
                * (inp k).im)
      ∧ (stat = statistics.fermionic → (∀ k, inp k = if k = 0 then 1 else 0) → out0 i = 0 →
          (iw_to_tau_real.new niw ntau beta stat u).naive inp out0 i
            = 2 / beta * Real.cos (Real.pi * (i : ℝ) / (ntau : ℝ))) := by
  have hi1 : i < (iw_to_tau_real.new niw ntau beta stat u).ntau_ := hi
  constructor
  · rw [iw_to_tau_naive_eq]
    simp only [hi1, if_true]
    rw [Finset.mul_sum]
    congr 1
    apply Finset.sum_congr rfl
    intro k hk
    have hk1 : 2 * k + (iw_to_tau_real.new niw ntau beta stat u).stat_.toNat < 2 ^ 32 := by
      have := statistics_toNat_le_one stat
      have hk2 : k < niw := Finset.mem_range.mp hk
      show 2 * k + stat.toNat < 2 ^ 32
      omega
    rw [iw_to_tau_wt_of_lt _ i hk1]
    rfl
  · intro hstat hinp hout
    rw [iw_to_tau_naive_single _ inp out0 0 i hniw hi1
      (fun k hk => by rw [hinp k, if_neg hk])]
    simp [hinp 0, hout, iw_to_tau_real.wt, iw_to_tau_real.new, hstat, statistics.toNat,
      unsigned_wrap]

/-- Instance of the amended claim C8: fermionic, `niw = 4`,
`ntau = 8`, `beta = 1`, the single mode at index `0`, zero output buffer, time
index `i = 3`. -/
theorem iw_to_tau_real_naive_postcondition_witness :
    0 < 4 ∧ 4 ≤ 2 ^ 31 ∧ (0 : ℝ) < 1 ∧ 3 < 8
      ∧ (iw_to_tau_real.new 4 8 1 statistics.fermionic false).naive
            (fun k => if k = 0 then 1 else 0) (fun _ => 0) 3
          = (fun _ => (0 : ℝ)) 3 + 2 / 1 * ∑ k ∈ Finset.range 4,
            (Real.cos (Real.pi * (2 * (k : ℝ) + (statistics.fermionic.toNat : ℝ))
                * ((3 : ℕ) : ℝ) / ((8 : ℕ) : ℝ))
                * ((fun k => if k = 0 then (1 : ℂ) else 0) k).re
              + Real.sin (Real.pi * (2 * (k : ℝ) + (statistics.fermionic.toNat : ℝ))
                * ((3 : ℕ) : ℝ) / ((8 : ℕ) : ℝ))
                * ((fun k => if k = 0 then (1 : ℂ) else 0) k).im)
      ∧ (iw_to_tau_real.new 4 8 1 statistics.fermionic false).naive
            (fun k => if k = 0 then 1 else 0) (fun _ => 0) 3
          = 2 / 1 * Real.cos (Real.pi * ((3 : ℕ) : ℝ) / ((8 : ℕ) : ℝ)) :=
  ⟨by norm_num, by norm_num, by norm_num, by norm_num,
    (iw_to_tau_real_naive_postcondition 4 8 1 statistics.fermionic false
      (fun k => if k = 0 then 1 else 0) (fun _ => 0) 3
      (by norm_num) (by norm_num) (by norm_num) (by norm_num)).1,
    (iw_to_tau_real_naive_postcondition 4 8 1 statistics.fermionic false
      (fun k => if k = 0 then 1 else 0) (fun _ => 0) 3
      (by norm_num) (by norm_num) (by norm_num) (by norm_num)).2 rfl (fun _ => rfl) rfl⟩

/-- Claim C9 as stated fails beyond `niw = 2^31`: for `ntau = 3`,
`niw = 2^31 + 1`, `beta = 1`, bosonic, the real input `[0, 1, 0]` and a zero
output buffer, the `unsigned` value `2*k` wraps to `0` at `k = 2^31`, and
`tau_to_iw_real::naive` leaves `out[2^31] = 1/3`, while the stated sum with
`wt = π·(2k+tag)·i/ntau` has the real part `cos(π·2^32/3)/3 = -1/6`. -/
theorem tau_to_iw_real_naive_wraps :
    (tau_to_iw_real.new 3 (2 ^ 31 + 1) 1 statistics.bosonic false).naive
        (fun i => if i = 1 then 1 else 0) (fun _ => 0) (2 ^ 31)
      ≠ (fun _ => (0 : ℂ)) (2 ^ 31) + ((1 : ℝ) : ℂ) / ((3 : ℕ) : ℂ) * ∑ i ∈ Finset.range 3,
          (((Real.cos (Real.pi * (2 * ((2 ^ 31 : ℕ) : ℝ) + (statistics.bosonic.toNat : ℝ))
                * (i : ℝ) / ((3 : ℕ) : ℝ)) : ℝ) : ℂ)
            + Complex.I * ((Real.sin (Real.pi * (2 * ((2 ^ 31 : ℕ) : ℝ)
                + (statistics.bosonic.toNat : ℝ)) * (i : ℝ) / ((3 : ℕ) : ℝ)) : ℝ) : ℂ))
            * (((fun i => if i = 1 then (1 : ℝ) else 0) i : ℝ) : ℂ) := by
  have hcode : (tau_to_iw_real.new 3 (2 ^ 31 + 1) 1 statistics.bosonic false).naive
        (fun i => if i = 1 then 1 else 0) (fun _ => 0) (2 ^ 31) = ⟨1 / 3, 0⟩ := by
    rw [tau_to_iw_naive_single _ _ _ 1 (2 ^ 31) (by simp [tau_to_iw_real.new])
      (by simp [tau_to_iw_real.new]) (fun i hi => if_neg hi)]
    simp [tau_to_iw_real.new, tau_to_iw_real.wt, unsigned_wrap, statistics.toNat]
    apply Complex.ext <;> simp
  have hsum : ∑ i ∈ Finset.range 3,
          (((Real.cos (Real.pi * (2 * ((2 ^ 31 : ℕ) : ℝ) + (statistics.bosonic.toNat : ℝ))
                * (i : ℝ) / ((3 : ℕ) : ℝ)) : ℝ) : ℂ)
            + Complex.I * ((Real.sin (Real.pi * (2 * ((2 ^ 31 : ℕ) : ℝ)
                + (statistics.bosonic.toNat : ℝ)) * (i : ℝ) / ((3 : ℕ) : ℝ)) : ℝ) : ℂ))
            * (((fun i => if i = 1 then (1 : ℝ) else 0) i : ℝ) : ℂ)
        = ((Real.cos (Real.pi * (2 * (2 ^ 31 : ℝ) + 0) * 1 / 3) : ℝ) : ℂ)
            + Complex.I * ((Real.sin (Real.pi * (2 * (2 ^ 31 : ℝ) + 0) * 1 / 3) : ℝ) : ℂ) := by
    rw [Finset.sum_eq_single 1]
    · simp only [statistics.toNat, Nat.cast_zero, Nat.cast_one, Nat.cast_ofNat, Nat.cast_pow,
        if_true, Complex.ofReal_one, mul_one]
    · intro i _ hi
      simp only [if_neg hi, Complex.ofReal_zero, mul_zero]
    · intro h
      exact absurd (Finset.mem_range.mpr (by norm_num)) h
  have hnorm : ((1 : ℝ) : ℂ) / ((3 : ℕ) : ℂ) = ((1 / 3 : ℝ) : ℂ) := by
    push_cast
    ring
  intro h
  rw [hcode, hsum, cos_two_pow_32, hnorm] at h
  have hre := congrArg Complex.re h
  simp only [Complex.add_re, Complex.zero_re, Complex.re_ofReal_mul, Complex.ofReal_re,
    Complex.I_mul_re, Complex.ofReal_im] at hre
  norm_num at hre

/-- Claim C9, amended: for `ntau > 0`, `niw ≤ 2^31` (so that the `unsigned`
value `2k + tag` does not wrap), `beta > 0` and every frequency `k < niw`,
`tau_to_iw_real::naive` leaves
`out[k] = out0[k] + (beta/ntau)·Σ_{i<ntau} (cos(wt) + i·sin(wt))·in[i]` with
`wt = π·(2k+tag)·i/ntau`. -/
theorem tau_to_iw_real_naive_postcondition (ntau niw : ℕ) (beta : ℝ) (stat : statistics)
    (u : Bool) (inp : ℕ → ℝ) (out0 : ℕ → ℂ) (k : ℕ)
    (_hntau : 0 < ntau) (hle : niw ≤ 2 ^ 31) (_hbeta : 0 < beta) (hk : k < niw) :
    (tau_to_iw_real.new ntau niw beta stat u).naive inp out0 k
      = out0 k + (beta : ℂ) / (ntau : ℂ) * ∑ i ∈ Finset.range ntau,
          (((Real.cos (Real.pi * (2 * (k : ℝ) + (stat.toNat : ℝ)) * (i : ℝ) / (ntau : ℝ))
                : ℝ) : ℂ)
            + Complex.I * ((Real.sin (Real.pi * (2 * (k : ℝ) + (stat.toNat : ℝ)) * (i : ℝ)
                / (ntau : ℝ)) : ℝ) : ℂ)) * (inp i : ℂ) := by
  have hk0 : k < (tau_to_iw_real.new ntau niw beta stat u).niw_ := hk
  have hk1 : 2 * k + (tau_to_iw_real.new ntau niw beta stat u).stat_.toNat < 2 ^ 32 := by
    have := statistics_toNat_le_one stat
    show 2 * k + stat.toNat < 2 ^ 32
    omega
  rw [tau_to_iw_naive_eq]
  simp only [hk0, if_true]
  rw [Finset.mul_sum]
  congr 1
  apply Finset.sum_congr rfl
  intro i _
  rw [tau_to_iw_term_eq, tau_to_iw_wt_of_lt _ i hk1]
  rfl

/-- Instance of the amended claim C9: fermionic, `ntau = 8`,
`niw = 4`, `beta = 1`, all-ones input, zero output buffer, frequency `k = 3`. -/
theorem tau_to_iw_real_naive_postcondition_witness :
    0 < 8 ∧ 4 ≤ 2 ^ 31 ∧ (0 : ℝ) < 1 ∧ 3 < 4
      ∧ (tau_to_iw_real.new 8 4 1 statistics.fermionic false).naive (fun _ => 1) (fun _ => 0) 3
          = (fun _ => (0 : ℂ)) 3 + ((1 : ℝ) : ℂ) / ((8 : ℕ) : ℂ) * ∑ i ∈ Finset.range 8,
            (((Real.cos (Real.pi * (2 * ((3 : ℕ) : ℝ) + (statistics.fermionic.toNat : ℝ))
                  * (i : ℝ) / ((8 : ℕ) : ℝ)) : ℝ) : ℂ)
              + Complex.I * ((Real.sin (Real.pi * (2 * ((3 : ℕ) : ℝ)
                  + (statistics.fermionic.toNat : ℝ)) * (i : ℝ) / ((8 : ℕ) : ℝ)) : ℝ) : ℂ))
              * (((fun _ => (1 : ℝ)) i : ℝ) : ℂ) :=
  ⟨by norm_num, by norm_num, by norm_num, by norm_num,
    tau_to_iw_real_naive_postcondition 8 4 1 statistics.fermionic false (fun _ => 1)
      (fun _ => 0) 3 (by norm_num) (by norm_num) (by norm_num) (by norm_num)⟩

/-- Claim C10, evaluated at `ntau = 8`, `niw = 4`, `beta = 1`, bosonic, all-ones
input, zero output buffer: the constructor builds a plan of size `8 * 0 = 0`
and the fast path of `tau_to_iw_real::operator()` stores every sample at
offset `n * 0 = 0` of a buffer without slots, so it has no defined result,
while `tau_to_iw_real::naive` adds `1` to `out[0]`. For `ntau = 2`, `niw = 3`
the plan has two slots and the fast path reads its output at offset `2`. -/
theorem tau_to_iw_real_fast_path_at_scenario :
    (tau_to_iw_real.new 8 4 1 statistics.bosonic true).call (fun _ => 1) (fun _ => 0) = none
      ∧ (tau_to_iw_real.new 8 4 1 statistics.bosonic true).naive (fun _ => 1) (fun _ => 0) 0
          = 1
      ∧ (tau_to_iw_real.new 2 3 1 statistics.bosonic true).call (fun _ => 1) (fun _ => 0)
          = none := by
  refine ⟨?_, ?_, ?_⟩
  · simp [tau_to_iw_real.call, tau_to_iw_real.new, fftw.wrapper.new, fftw.wrapper.write_in,
      List.range_succ_eq_map]
  · rw [tau_to_iw_naive_eq]
    simp [tau_to_iw_real.new, tau_to_iw_real.wt, unsigned_wrap, statistics.toNat]
    apply Complex.ext <;> norm_num
  · simp [tau_to_iw_real.call, tau_to_iw_real.new, fftw.wrapper.new, fftw.wrapper.write_in,
      fftw.wrapper.read_out, fftw.wrapper.execute, List.range_succ]

/-! ## Model subtraction and bulk apply -/

/-- A loop `out[k] = h k (out[k])` over `k = 0..n-1` changes each of the first
`n` slots by its own map and leaves the other slots alone. -/
theorem foldl_update_map {α : Type*} (h : ℕ → α → α) (n : ℕ) (out : ℕ → α) :
    (List.range n).foldl (fun o k => Function.update o k (h k (o k))) out
      = fun i => if i < n then h i (out i) else out i := by
  induction n with
  | zero => simp
  | succ m ih =>
    rw [List.range_succ, List.foldl_append, ih]
    funext i
    simp only [List.foldl_cons, List.foldl_nil, lt_irrefl, if_false]
    by_cases him : i = m
    · subst him
      simp
    · rw [Function.update_noteq him]
      by_cases hlt : i < m
      · simp [hlt, Nat.lt_succ_of_lt hlt]
      · have : ¬ i < m + 1 := by omega
        simp [hlt, this]

/-- An accumulating loop whose body may fail, started on a buffer `out`, ends
like the same loop started on the zero buffer, with `out` added slot by
slot. -/
theorem foldlM_update_shift {α β : Type*} [AddCommMonoid α] (r : ℕ → Option β) (p : β → α)
    (n : ℕ) (out : ℕ → α) :
    (List.range n).foldlM (fun o k => (r k).map fun v => Function.update o k (o k + p v)) out
      = ((List.range n).foldlM
          (fun o k => (r k).map fun v => Function.update o k (o k + p v))
          (fun _ => 0)).map (fun o i => out i + o i) := by
  induction n with
  | zero => simp
  | succ m ih =>
    rw [List.range_succ, List.foldlM_append, List.foldlM_append, ih]
    cases hfold : (List.range m).foldlM
        (fun o k => (r k).map fun v => Function.update o k (o k + p v)) (fun _ => (0 : α)) with
    | none => simp
    | some o =>
      cases hr : r m with
      | none => simp [hr]
      | some v =>
        simp only [Option.map_some', Option.bind_eq_bind, Option.some_bind, List.foldlM_cons,
          List.foldlM_nil, hr, Option.pure_def, Option.bind_some]
        congr 1
        funext i
        by_cases him : i = m
        · subst him
          simp [add_assoc]
        · simp [Function.update_noteq him]

/-- Both paths of `iw_to_tau_real::operator()` accumulate: the result for an
initial buffer `out` is `out` plus the result for the zero buffer. -/
theorem iw_to_tau_call_shift (c : iw_to_tau_real) (inp : ℕ → ℂ) (out : ℕ → ℝ) :
    c.call inp out
      = (c.call inp (fun _ => 0)).map fun r => (r.1, fun i => out i + r.2 i) := by
  unfold iw_to_tau_real.call
  cases hfft : c.fft_ with
  | none =>
    simp only [Option.map_some']
    congr 2
    rw [iw_to_tau_naive_eq, iw_to_tau_naive_eq]
    funext i
    by_cases hi : i < c.ntau_
    · simp [hi]
    · simp [hi]
  | some w =>
    simp only []
    cases hcopy : w.copy_in inp c.niw_ with
    | none => simp
    | some w1 =>
      simp only [Option.some_bind]
      rw [foldlM_update_shift (fun n => (c.ftau w1.execute n).bind iw_to_tau_real.assert)
        Complex.re c.ntau_ out]
      simp [Option.map_map, Function.comp_def]

/-- Both paths of `iw_to_tau_real::operator()` read the first `niw` input
samples only. -/
theorem iw_to_tau_call_congr (c : iw_to_tau_real) (x y : ℕ → ℂ) (out : ℕ → ℝ)
    (h : ∀ k, k < c.niw_ → x k = y k) : c.call x out = c.call y out := by
  unfold iw_to_tau_real.call
  cases hfft : c.fft_ with
  | none =>
    simp only []
    congr 2
    rw [iw_to_tau_naive_eq, iw_to_tau_naive_eq]
    funext i
    congr 2
    apply Finset.sum_congr rfl
    intro k hk
    rw [h k (Finset.mem_range.mp hk)]
  | some w =>
    simp only []
    have hc : w.copy_in x c.niw_ = w.copy_in y c.niw_ := by
      unfold fftw.wrapper.copy_in
      congr 3
      funext i
      by_cases hi : i < c.niw_
      · simp [hi, h i hi]
      · simp [hi]
    rw [hc]

/-- A call of `iw_to_tau_real::operator()` does not change `out_size()`. -/
theorem iw_to_tau_call_out_size (c : iw_to_tau_real) (inp : ℕ → ℂ) (out : ℕ → ℝ)
    (r : iw_to_tau_real × (ℕ → ℝ)) (h : c.call inp out = some r) :
    r.1.out_size = c.out_size := by
  unfold iw_to_tau_real.call at h
  cases hfft : c.fft_ with
  | none =>
    rw [hfft] at h
    simp only [Option.some.injEq] at h
    rw [← h]
  | some w =>
    rw [hfft] at h
    simp only [Option.bind_eq_some, Option.map_eq_some'] at h
    obtain ⟨w1, _, o, _, hr⟩ := h
    rw [← hr]
    rfl

/-- The internal buffer of `iw_to_tau_model_real::operator()` after the
subtraction loop. -/
theorem model_subtracted_eq (m : iw_to_tau_model_real) (inp : ℕ → ℂ) :
    m.subtracted inp = fun n =>
      if n < m.transform_.in_size then inp n - m.model_.fiw n else m.in_buffer_ n := by
  unfold iw_to_tau_model_real.subtracted
  rw [foldl_update_map (fun n b => b - m.model_.fiw n)]
  funext n
  by_cases hn : n < m.transform_.in_size
  · simp [hn]
  · simp [hn]

/-- Claim C11: for every input `in[0..niw-1]`, initial buffer `out0` and tail
model `(fiw, ftau)`: when the wrapped `iw_to_tau_real` adds `T` to a zero
buffer for the input `in - fiw`, `iw_to_tau_model_real::operator()` leaves
`out[n] = out0[n] + T[n] + ftau(tau_value(n))` for every `n < out_size`. The
subtraction is done on the internal buffer, which then holds `in[k] - fiw(k)`;
the caller's input is only read. -/
theorem iw_to_tau_model_real_call_contract (m : iw_to_tau_model_real) (tau_value : ℕ → ℝ)
    (inp : ℕ → ℂ) (out0 : ℕ → ℝ) (t1 : iw_to_tau_real) (T : ℕ → ℝ)
    (hT : m.transform_.call (fun k => inp k - m.model_.fiw k) (fun _ => 0) = some (t1, T)) :
    ∃ m1 out, m.call tau_value inp out0 = some (m1, out)
      ∧ (∀ n, n < m.transform_.out_size →
          out n = out0 n + T n + m.model_.ftau (tau_value n))
      ∧ (∀ k, k < m.transform_.in_size → m1.in_buffer_ k = inp k - m.model_.fiw k) := by
  have hsub := model_subtracted_eq m inp
  have hcongr : m.transform_.call (m.subtracted inp) out0
      = m.transform_.call (fun k => inp k - m.model_.fiw k) out0 := by
    apply iw_to_tau_call_congr
    intro k hk
    have hk1 : k < m.transform_.in_size := hk
    rw [hsub]
    simp [hk1]
  have hcall : m.transform_.call (m.subtracted inp) out0
      = some (t1, fun i => out0 i + T i) := by
    rw [hcongr, iw_to_tau_call_shift, hT]
    rfl
  have hsize : t1.out_size = m.transform_.out_size :=
    iw_to_tau_call_out_size _ _ _ _ hT
  refine ⟨{ transform_ := t1, model_ := m.model_, in_buffer_ := m.subtracted inp },
    (List.range t1.out_size).foldl
      (fun o n => Function.update o n (o n + m.model_.ftau (tau_value n)))
      (fun i => out0 i + T i), ?_, ?_, ?_⟩
  · unfold iw_to_tau_model_real.call
    rw [hcall]
    rfl
  · intro n hn
    rw [foldl_update_map (fun n o => o + m.model_.ftau (tau_value n)), hsize]
    simp [hn]
  · intro k hk
    show m.subtracted inp k = inp k - m.model_.fiw k
    rw [hsub]
    simp [hk]

/-- Instance of claim C11: the wrapper around `iw_to_tau_real(4, 8, 1, bosonic)`
on the fallback path, model `fiw = 1`, `ftau(t) = t`, grid `n/8`, input all
`2`, zero output buffer. -/
theorem iw_to_tau_model_real_call_contract_witness :
    (iw_to_tau_real.new 4 8 1 statistics.bosonic false).call
          (fun k => (fun _ => (2 : ℂ)) k - (fun _ => (1 : ℂ)) k) (fun _ => 0)
        = some (iw_to_tau_real.new 4 8 1 statistics.bosonic false,
            (iw_to_tau_real.new 4 8 1 statistics.bosonic false).naive
              (fun k => (fun _ => (2 : ℂ)) k - (fun _ => (1 : ℂ)) k) (fun _ => 0))
      ∧ ∃ m1 out,
          iw_to_tau_model_real.call
              { transform_ := iw_to_tau_real.new 4 8 1 statistics.bosonic false
                model_ := { fiw := fun _ => 1, ftau := fun t => t }
                in_buffer_ := fun _ => 0 }
              (fun n => (n : ℝ) / 8) (fun _ => 2) (fun _ => 0)
            = some (m1, out)
          ∧ (∀ n, n < (iw_to_tau_real.new 4 8 1 statistics.bosonic false).out_size →
              out n = (fun _ => (0 : ℝ)) n
                + (iw_to_tau_real.new 4 8 1 statistics.bosonic false).naive
                    (fun k => (fun _ => (2 : ℂ)) k - (fun _ => (1 : ℂ)) k) (fun _ => 0) n
                + (fun t : ℝ => t) ((fun n : ℕ => (n : ℝ) / 8) n))
          ∧ (∀ k, k < (iw_to_tau_real.new 4 8 1 statistics.bosonic false).in_size →
              m1.in_buffer_ k = (fun _ => (2 : ℂ)) k - (fun _ => (1 : ℂ)) k) :=
  ⟨rfl,
    iw_to_tau_model_real_call_contract
      { transform_ := iw_to_tau_real.new 4 8 1 statistics.bosonic false
        model_ := { fiw := fun _ => 1, ftau := fun t => t }
        in_buffer_ := fun _ => 0 }
      (fun n => (n : ℝ) / 8) (fun _ => 2) (fun _ => 0)
      (iw_to_tau_real.new 4 8 1 statistics.bosonic false)
      ((iw_to_tau_real.new 4 8 1 statistics.bosonic false).naive
        (fun k => (fun _ => (2 : ℂ)) k - (fun _ => (1 : ℂ)) k) (fun _ => 0)) rfl⟩

/-- Claim C12: when the tail model is zero in both domains (`fiw(n) = 0` for
every index, `ftau(t) = 0` for every time value),
`iw_to_tau_model_real::operator()` leaves the output buffer equal to what the
wrapped `iw_to_tau_real` leaves for the same input and the same initial
buffer. -/
theorem zero_model_is_noop (m : iw_to_tau_model_real) (tau_value : ℕ → ℝ) (inp : ℕ → ℂ)
    (out0 : ℕ → ℝ) (hfiw : ∀ n, m.model_.fiw n = 0) (hftau : ∀ t, m.model_.ftau t = 0) :
    (m.call tau_value inp out0).map Prod.snd = (m.transform_.call inp out0).map Prod.snd := by
  have hcongr : m.transform_.call (m.subtracted inp) out0 = m.transform_.call inp out0 := by
    apply iw_to_tau_call_congr
    intro k hk
    have hk1 : k < m.transform_.in_size := hk
    rw [model_subtracted_eq]
    simp [hk1, hfiw]
  unfold iw_to_tau_model_real.call
  rw [hcongr, Option.map_map]
  congr 1
  funext r
  simp only [Function.comp_apply]
  rw [foldl_update_map (fun n o => o + m.model_.ftau (tau_value n))]
  funext i
  simp [hftau]

/-- Instance of claim C12: the wrapper around `iw_to_tau_real(4, 4, 1, fermionic)`
without acceleration (the call of the converter returns), the zero model, grid
`n/4`, all-ones input and initial buffer. -/
theorem zero_model_is_noop_witness :
    (∀ n : ℕ, (fun _ : ℕ => (0 : ℂ)) n = 0) ∧ (∀ t : ℝ, (fun _ : ℝ => (0 : ℝ)) t = 0)
      ∧ (iw_to_tau_model_real.call
            { transform_ := iw_to_tau_real.new 4 4 1 statistics.fermionic false
              model_ := { fiw := fun _ => 0, ftau := fun _ => 0 }
              in_buffer_ := fun _ => 0 }
            (fun n => (n : ℝ) / 4) (fun _ => 1) (fun _ => 1)).map Prod.snd
        = ((iw_to_tau_real.new 4 4 1 statistics.fermionic false).call
            (fun _ => 1) (fun _ => 1)).map Prod.snd :=
  ⟨fun _ => rfl, fun _ => rfl,
    zero_model_is_noop
      { transform_ := iw_to_tau_real.new 4 4 1 statistics.fermionic false
        model_ := { fiw := fun _ => 0, ftau := fun _ => 0 }
        in_buffer_ := fun _ => 0 }
      (fun n => (n : ℝ) / 4) (fun _ => 1) (fun _ => 1) (fun _ => rfl) (fun _ => rfl)⟩

/-- Claim C13: `apply(tf, in)` throws the size-mismatch error exactly when
`tf.in_size() != in.size()`, and then whatever the call operator of the
transformer is (it is not invoked); otherwise, when the call of `tf` on the
input and an all-zero buffer ends with the buffer `out1`, `apply` returns a
vector of length `tf.out_size()` whose entries are those of `out1`. -/
theorem apply_contract {S In Out : Type} [Zero In] [Zero Out] (T : transformer S In Out)
    (tf : S) (inp : List In) :
    (apply T tf inp = apply_result.size_mismatch ↔ T.in_size tf ≠ inp.length)
      ∧ (T.in_size tf ≠ inp.length →
          ∀ call1 : S → (ℕ → In) → (ℕ → Out) → Option (S × (ℕ → Out)),
            apply { T with call := call1 } tf inp = apply_result.size_mismatch)
      ∧ (T.in_size tf = inp.length → ∀ tf1 out1,
          T.call tf (fun i => inp.getD i 0) (fun _ => 0) = some (tf1, out1) →
          ∃ v, apply T tf inp = apply_result.returned tf1 v
            ∧ v.length = T.out_size tf
            ∧ ∀ n (hn : n < v.length), v.get ⟨n, hn⟩ = out1 n) := by
  refine ⟨?_, ?_, ?_⟩
  · constructor
    · intro h hsize
      unfold apply at h
      rw [if_neg (not_not.mpr hsize)] at h
      cases hcall : T.call tf (fun i => inp.getD i 0) (fun _ => 0) with
      | none =>
        rw [hcall] at h
        exact apply_result.noConfusion h
      | some r =>
        rw [hcall] at h
        exact apply_result.noConfusion h
    · intro hsize
      unfold apply
      rw [if_pos hsize]
  · intro hsize call1
    unfold apply
    rw [if_pos hsize]
  · intro hsize tf1 out1 hcall
    refine ⟨(List.range (T.out_size tf)).map out1, ?_, ?_, ?_⟩
    · unfold apply
      rw [if_neg (not_not.mpr hsize), hcall]
    · simp
    · intro n hn
      simp

/-- Instance of claim C13: `apply` on `iw_to_tau_real(2, 4, 1, bosonic)` (fallback
path) throws for an input vector of three samples and returns four entries
for an input vector of two samples. -/
theorem apply_contract_witness :
    (iw_to_tau_real.new 2 4 1 statistics.bosonic false).in_size ≠ [(1 : ℂ), 1, 1].length
      ∧ (apply
            ({ in_size := iw_to_tau_real.in_size, out_size := iw_to_tau_real.out_size
               call := iw_to_tau_real.call } : transformer iw_to_tau_real ℂ ℝ)
            (iw_to_tau_real.new 2 4 1 statistics.bosonic false) [1, 1, 1]
          = apply_result.size_mismatch
        ↔ (iw_to_tau_real.new 2 4 1 statistics.bosonic false).in_size
            ≠ [(1 : ℂ), 1, 1].length)
      ∧ (iw_to_tau_real.new 2 4 1 statistics.bosonic false).in_size = [(1 : ℂ), 1].length
      ∧ ∃ v, apply
            ({ in_size := iw_to_tau_real.in_size, out_size := iw_to_tau_real.out_size
               call := iw_to_tau_real.call } : transformer iw_to_tau_real ℂ ℝ)
            (iw_to_tau_real.new 2 4 1 statistics.bosonic false) [1, 1]
          = apply_result.returned (iw_to_tau_real.new 2 4 1 statistics.bosonic false) v
        ∧ v.length = (iw_to_tau_real.new 2 4 1 statistics.bosonic false).out_size
        ∧ ∀ n (hn : n < v.length), v.get ⟨n, hn⟩
            = (iw_to_tau_real.new 2 4 1 statistics.bosonic false).naive
                (fun i => [(1 : ℂ), 1].getD i 0) (fun _ => 0) n :=
  ⟨by simp [iw_to_tau_real.in_size, iw_to_tau_real.new],
    (apply_contract
      ({ in_size := iw_to_tau_real.in_size, out_size := iw_to_tau_real.out_size
         call := iw_to_tau_real.call } : transformer iw_to_tau_real ℂ ℝ)
      (iw_to_tau_real.new 2 4 1 statistics.bosonic false) [1, 1, 1]).1,
    rfl,
    (apply_contract
      ({ in_size := iw_to_tau_real.in_size, out_size := iw_to_tau_real.out_size
         call := iw_to_tau_real.call } : transformer iw_to_tau_real ℂ ℝ)
      (iw_to_tau_real.new 2 4 1 statistics.bosonic false) [1, 1]).2.2 rfl
      (iw_to_tau_real.new 2 4 1 statistics.bosonic false)
      ((iw_to_tau_real.new 2 4 1 statistics.bosonic false).naive
        (fun i => [(1 : ℂ), 1].getD i 0) (fun _ => 0)) rfl⟩

/-- The buffer left by `tau_to_iw_real::naive` for `niw ≤ 2^31`, with the angle
`π·(2k+tag)·i/ntau`. -/
theorem tau_to_iw_naive_exact (ntau niw : ℕ) (beta : ℝ) (stat : statistics) (u : Bool)
    (inp : ℕ → ℝ) (out : ℕ → ℂ) (hle : niw ≤ 2 ^ 31) :
    (tau_to_iw_real.new ntau niw beta stat u).naive inp out
      = fun k =>
          if k < niw then
            out k + ∑ i ∈ Finset.range ntau, ((beta / (ntau : ℝ) : ℝ) : ℂ) *
              ⟨Real.cos (Real.pi * (2 * (k : ℝ) + (stat.toNat : ℝ)) * (i : ℝ) / (ntau : ℝ))
                  * inp i,
                Real.sin (Real.pi * (2 * (k : ℝ) + (stat.toNat : ℝ)) * (i : ℝ) / (ntau : ℝ))
                  * inp i⟩
          else out k := by
  rw [tau_to_iw_naive_eq]
  funext k
  show (if k < niw then _ else _) = _
  by_cases hk : k < niw
  · simp only [hk, if_true]
    congr 1
    apply Finset.sum_congr rfl
    intro i _
    have hk1 : 2 * k + (tau_to_iw_real.new ntau niw beta stat u).stat_.toNat < 2 ^ 32 := by
      have := statistics_toNat_le_one stat
      show 2 * k + stat.toNat < 2 ^ 32
      omega
    rw [tau_to_iw_wt_of_lt _ i hk1]
    rfl
  · simp only [hk, if_false]

/-- Claim C17: for fermionic statistics, `beta > 0`, `niw > 0` and a time grid
with `2·niw ≤ ntau` (`ntau` an `unsigned` value), `tau_to_iw_real::naive`
applied (into a zero buffer) to the result of `iw_to_tau_real::naive` applied
to `F` (into a zero buffer) returns `G` with `G[k] = F[k]` for every
`k < niw`. -/
theorem fermionic_round_trip_exact (niw ntau : ℕ) (beta : ℝ) (F : ℕ → ℂ) (k : ℕ)
    (_hniw : 0 < niw) (hb : 0 < beta) (hgrid : 2 * niw ≤ ntau) (hntau : ntau < 2 ^ 32)
    (hk : k < niw) :
    (tau_to_iw_real.new ntau niw beta statistics.fermionic false).naive
        ((iw_to_tau_real.new niw ntau beta statistics.fermionic false).naive F (fun _ => 0))
        (fun _ => 0) k
      = F k := by
  rw [round_trip_fine_grid niw ntau beta statistics.fermionic false false F k hb hgrid hntau hk]
  simp

/-- Instance of claim C17: `niw = 2`, `ntau = 4`, `beta = 2`, `F = [1, i]`,
frequency `k = 0`. -/
theorem fermionic_round_trip_exact_witness :
    0 < 2 ∧ (0 : ℝ) < 2 ∧ 2 * 2 ≤ 4 ∧ 4 < 2 ^ 32 ∧ 0 < 2
      ∧ (tau_to_iw_real.new 4 2 2 statistics.fermionic false).naive
          ((iw_to_tau_real.new 2 4 2 statistics.fermionic false).naive
            (fun k => if k = 0 then 1 else Complex.I) (fun _ => 0)) (fun _ => 0) 0
        = (fun k => if k = 0 then (1 : ℂ) else Complex.I) 0 :=
  ⟨by norm_num, by norm_num, by norm_num, by norm_num, by norm_num,
    fermionic_round_trip_exact 2 4 2 (fun k => if k = 0 then 1 else Complex.I) 0
      (by norm_num) (by norm_num) (by norm_num) (by norm_num) (by norm_num)⟩

/-- Claim C18: for bosonic statistics, `beta > 0`, `niw > 0` and a time grid
with `2·niw ≤ ntau` (`ntau` an `unsigned` value), the round trip through
`iw_to_tau_real::naive` and `tau_to_iw_real::naive` (both into zero buffers)
returns `G` with `G[0] = 2·Re F[0]` and `G[k] = F[k]` for `1 ≤ k < niw`. -/
theorem bosonic_round_trip_zero_mode (niw ntau : ℕ) (beta : ℝ) (F : ℕ → ℂ)
    (hniw : 0 < niw) (hb : 0 < beta) (hgrid : 2 * niw ≤ ntau) (hntau : ntau < 2 ^ 32) :
    (tau_to_iw_real.new ntau niw beta statistics.bosonic false).naive
          ((iw_to_tau_real.new niw ntau beta statistics.bosonic false).naive F (fun _ => 0))
          (fun _ => 0) 0
        = ((2 * (F 0).re : ℝ) : ℂ)
      ∧ ∀ k, 1 ≤ k → k < niw →
          (tau_to_iw_real.new ntau niw beta statistics.bosonic false).naive
            ((iw_to_tau_real.new niw ntau beta statistics.bosonic false).naive F (fun _ => 0))
            (fun _ => 0) k
          = F k := by
  constructor
  · rw [round_trip_fine_grid niw ntau beta statistics.bosonic false false F 0 hb hgrid hntau
      hniw]
    simp
  · intro k hk1 hk
    rw [round_trip_fine_grid niw ntau beta statistics.bosonic false false F k hb hgrid hntau
      hk]
    have hk0 : k ≠ 0 := by omega
    simp [hk0]

/-- Instance of claim C18: `niw = 2`, `ntau = 4`, `beta = 2`, `F = [i, 1]`. -/
theorem bosonic_round_trip_zero_mode_witness :
    0 < 2 ∧ (0 : ℝ) < 2 ∧ 2 * 2 ≤ 4 ∧ 4 < 2 ^ 32
      ∧ (tau_to_iw_real.new 4 2 2 statistics.bosonic false).naive
            ((iw_to_tau_real.new 2 4 2 statistics.bosonic false).naive
              (fun k => if k = 0 then Complex.I else 1) (fun _ => 0)) (fun _ => 0) 0
          = ((2 * ((fun k => if k = 0 then Complex.I else (1 : ℂ)) 0).re : ℝ) : ℂ)
      ∧ ∀ k, 1 ≤ k → k < 2 →
          (tau_to_iw_real.new 4 2 2 statistics.bosonic false).naive
            ((iw_to_tau_real.new 2 4 2 statistics.bosonic false).naive
              (fun k => if k = 0 then Complex.I else 1) (fun _ => 0)) (fun _ => 0) k
          = (fun k => if k = 0 then Complex.I else (1 : ℂ)) k :=
  ⟨by norm_num, by norm_num, by norm_num, by norm_num,
    bosonic_round_trip_zero_mode 2 4 2 (fun k => if k = 0 then Complex.I else 1)
      (by norm_num) (by norm_num) (by norm_num) (by norm_num)⟩

/-- The angle `π·(2^32 - 6)/3` is `4π/3` up to full turns. -/
theorem cos_two_pow_32_sub : Real.cos (Real.pi * (4294967290 : ℝ) * 1 / 3) = -1 / 2 := by
  have h : Real.pi * (4294967290 : ℝ) * 1 / 3
      = Real.pi / 3 + Real.pi + ((715827881 : ℤ) : ℝ) * (2 * Real.pi) := by
    push_cast
    ring
  rw [h, Real.cos_add_int_mul_two_pi, Real.cos_add_pi, Real.cos_pi_div_three]
  norm_num

/-- Claim C19 as stated fails beyond `niw = 2^31`: for `ntau = 3`,
`niw = 2^31 + 1`, `beta = 1`, bosonic, the real input `[0, 1, 0]` and a zero
output buffer, `tau_to_iw_real::naive` leaves `out[2^31] = 1/3` (the `unsigned`
value `2*k` wraps to `0`) and `out[2^31 - 3]` with the real part
`cos(π·(2^32-6)/3)/3 = -1/6`. -/
theorem aliasing_fails_beyond_range :
    (2 ^ 31 - 3) + 3 < 2 ^ 31 + 1
      ∧ (tau_to_iw_real.new 3 (2 ^ 31 + 1) 1 statistics.bosonic false).naive
          (fun i => if i = 1 then 1 else 0) (fun _ => 0) ((2 ^ 31 - 3) + 3)
        ≠ (tau_to_iw_real.new 3 (2 ^ 31 + 1) 1 statistics.bosonic false).naive
          (fun i => if i = 1 then 1 else 0) (fun _ => 0) (2 ^ 31 - 3) := by
  refine ⟨by norm_num, ?_⟩
  have h1 : (tau_to_iw_real.new 3 (2 ^ 31 + 1) 1 statistics.bosonic false).naive
        (fun i => if i = 1 then 1 else 0) (fun _ => 0) ((2 ^ 31 - 3) + 3) = ⟨1 / 3, 0⟩ := by
    rw [tau_to_iw_naive_single _ _ _ 1 ((2 ^ 31 - 3) + 3) (by simp [tau_to_iw_real.new])
      (by simp [tau_to_iw_real.new]) (fun i hi => if_neg hi)]
    simp [tau_to_iw_real.new, tau_to_iw_real.wt, unsigned_wrap, statistics.toNat]
    apply Complex.ext <;> simp
  have h2 : ((tau_to_iw_real.new 3 (2 ^ 31 + 1) 1 statistics.bosonic false).naive
        (fun i => if i = 1 then 1 else 0) (fun _ => 0) (2 ^ 31 - 3)).re = -1 / 6 := by
    rw [tau_to_iw_naive_single _ _ _ 1 (2 ^ 31 - 3) (by simp [tau_to_iw_real.new])
      (by simp [tau_to_iw_real.new]) (fun i hi => if_neg hi)]
    have hc := cos_two_pow_32_sub
    simp only [mul_one] at hc
    simp [tau_to_iw_real.new, tau_to_iw_real.wt, unsigned_wrap, statistics.toNat, hc]
    norm_num
  intro h
  rw [h1] at h
  have hre := congrArg Complex.re h
  rw [h2] at hre
  norm_num at hre

/-- Claim C19, amended: for `ntau > 0`, `ntau < niw ≤ 2^31`, `beta > 0` and both
statistics tags, the result of `tau_to_iw_real::naive` into a zero buffer is
periodic in the frequency index with period `ntau`: `out[k + ntau] = out[k]`
for every `k` with `k + ntau < niw`. -/
theorem tau_to_iw_naive_aliasing (ntau niw : ℕ) (beta : ℝ) (stat : statistics) (u : Bool)
    (inp : ℕ → ℝ) (k : ℕ) (hntau : 0 < ntau) (_hniw : ntau < niw) (hle : niw ≤ 2 ^ 31)
    (_hbeta : 0 < beta) (hk : k + ntau < niw) :
    (tau_to_iw_real.new ntau niw beta stat u).naive inp (fun _ => 0) (k + ntau)
      = (tau_to_iw_real.new ntau niw beta stat u).naive inp (fun _ => 0) k := by
  have hn : (ntau : ℝ) ≠ 0 := by exact_mod_cast hntau.ne'
  rw [tau_to_iw_naive_exact ntau niw beta stat u inp _ hle]
  simp only [hk, if_true, show k < niw by omega]
  congr 1
  apply Finset.sum_congr rfl
  intro i _
  have hang : Real.pi * (2 * ((k + ntau : ℕ) : ℝ) + (stat.toNat : ℝ)) * (i : ℝ) / (ntau : ℝ)
      = Real.pi * (2 * (k : ℝ) + (stat.toNat : ℝ)) * (i : ℝ) / (ntau : ℝ)
        + (i : ℝ) * (2 * Real.pi) := by
    push_cast
    field_simp
    ring
  rw [hang, Real.cos_add_nat_mul_two_pi, Real.sin_add_nat_mul_two_pi]

/-- Instance of the amended claim C19: `ntau = 2`, `niw = 5`, `beta = 1`,
fermionic, input `[1, 2]`, frequency `k = 1`. -/
theorem tau_to_iw_naive_aliasing_witness :
    0 < 2 ∧ 2 < 5 ∧ 5 ≤ 2 ^ 31 ∧ (0 : ℝ) < 1 ∧ 1 + 2 < 5
      ∧ (tau_to_iw_real.new 2 5 1 statistics.fermionic false).naive
            (fun i => if i = 0 then 1 else 2) (fun _ => 0) (1 + 2)
          = (tau_to_iw_real.new 2 5 1 statistics.fermionic false).naive
            (fun i => if i = 0 then 1 else 2) (fun _ => 0) 1 :=
  ⟨by norm_num, by norm_num, by norm_num, by norm_num, by norm_num,
    tau_to_iw_naive_aliasing 2 5 1 statistics.fermionic false (fun i => if i = 0 then 1 else 2)
      1 (by norm_num) (by norm_num) (by norm_num) (by norm_num) (by norm_num)⟩
end transform

end alps
